import Mathlib

/-!
Verification development for the `afb` object-construction library.

The Python source is shallowly embedded: Python's dynamically typed values
become the inductive `PyVal`, classes become `PyClass`, exceptions become the
`Err` inductive returned through `Except`, and each Python function of interest
becomes a Lean function of the same name (snake_case kept where Lean allows).
Python `dict`s are embedded as insertion-ordered association lists, with
`dict.update` / dict-literal construction modelled by in-place replacement that
keeps the original position of an existing key, matching CPython semantics.
-/

namespace Afb

/-- Embedding of the Python classes that appear in the library and its data.
User-defined classes are identified by name; the model gives user classes no
inheritance (none of the verified code paths create user subclasses), while
`bool` is a subclass of `int` as in Python. -/
inductive PyClass where
  | noneType
  | intCls
  | boolCls
  | strCls
  | listCls
  | tupleCls
  | dictCls
  | user (name : String)
deriving DecidableEq, Repr

/-- Embedding of Python runtime values (manifests, realized arguments, and
constructed instances). `dict` is an insertion-ordered association list;
`obj c fields` is an instance of the user class named `c`. -/
inductive PyVal where
  | none
  | int (n : Int)
  | bool (b : Bool)
  | str (s : String)
  | list (xs : List PyVal)
  | tuple (xs : List PyVal)
  | dict (kvs : List (PyVal × PyVal))
  | obj (cls : String) (fields : List PyVal)

mutual

/-- Python `==` on embedded values (structural equality). -/
def PyVal.beq : PyVal → PyVal → Bool
  | .none, .none => true
  | .int n, .int m => n == m
  | .bool a, .bool b => a == b
  | .str a, .str b => a == b
  | .list xs, .list ys => PyVal.beqList xs ys
  | .tuple xs, .tuple ys => PyVal.beqList xs ys
  | .dict xs, .dict ys => PyVal.beqPairs xs ys
  | .obj c f, .obj d g => c == d && PyVal.beqList f g
  | _, _ => false

def PyVal.beqList : List PyVal → List PyVal → Bool
  | [], [] => true
  | x :: xs, y :: ys => PyVal.beq x y && PyVal.beqList xs ys
  | _, _ => false

def PyVal.beqPairs : List (PyVal × PyVal) → List (PyVal × PyVal) → Bool
  | [], [] => true
  | (k, v) :: xs, (k', v') :: ys =>
    PyVal.beq k k' && PyVal.beq v v' && PyVal.beqPairs xs ys
  | _, _ => false

end

instance : BEq PyVal := ⟨PyVal.beq⟩

/-- `type(v)` -/
def PyVal.typeOf : PyVal → PyClass
  | .none => .noneType
  | .int _ => .intCls
  | .bool _ => .boolCls
  | .str _ => .strCls
  | .list _ => .listCls
  | .tuple _ => .tupleCls
  | .dict _ => .dictCls
  | .obj c _ => .user c

/-- Python `issubclass` restricted to the embedded class universe:
reflexive, plus `bool <= int`; user classes have no inheritance here. -/
def issubclass (c d : PyClass) : Bool :=
  c = d || (c = .boolCls && d = .intCls)

/-- Python `isinstance`. -/
def isinstance (v : PyVal) (c : PyClass) : Bool :=
  issubclass v.typeOf c

/-- `misc.qualname` on classes (builtins keep their plain name, user classes
carry their qualified name directly). -/
def qualname : PyClass → String
  | .noneType => "NoneType"
  | .intCls => "int"
  | .boolCls => "bool"
  | .strCls => "str"
  | .listCls => "list"
  | .tupleCls => "tuple"
  | .dictCls => "dict"
  | .user n => n

/-- The exception classes raised by the library (`afb.utils.errors` plus the
Python builtins used).  Payloads keep the data the error messages carry. -/
inductive Err where
  | keyConflict (keys : List String)
  | signatureErr (names : List String)
  | argumentErr (names : List String)
  | invalidFormat
  | graph (target : String)
  | typeMismatch (expected actual : String)
  | typeErr (msg : String)
  | keyErr (msg : String)
  | valueErr (msg : String)
  | indexErr
  | assertionErr
deriving DecidableEq, Repr

/-- `misc.SEP` -/
def SEP : String := "/"

/-- `misc.is_reserved`: the key's first `/`-segment is `afb`
(`name.split(SEP)[0] == "afb"`, computed on the character list). -/
def is_reserved (name : String) : Bool :=
  name.data.takeWhile (fun c => c ≠ '/') == "afb".data

/-- `misc.join_reserved` for a single component. -/
def join_reserved (k : String) : String := "afb" ++ SEP ++ k

/-- Replace the value of `k` in place (keeping its position) or append,
i.e. CPython `d[k] = v` for string keys. -/
def pySet {α : Type} (kvs : List (String × α)) (k : String) (v : α) :
    List (String × α) :=
  match kvs with
  | [] => [(k, v)]
  | (k', v') :: rest =>
    if k' = k then (k, v) :: rest else (k', v') :: pySet rest k v

/-- CPython `dict.update`. -/
def pyUpdate {α : Type} (base upd : List (String × α)) : List (String × α) :=
  upd.foldl (fun acc kv => pySet acc kv.1 kv.2) base

/-- `d[k] = v` for `PyVal` keys. -/
def pySetV (kvs : List (PyVal × PyVal)) (k v : PyVal) :
    List (PyVal × PyVal) :=
  match kvs with
  | [] => [(k, v)]
  | (k', v') :: rest =>
    if PyVal.beq k' k then (k, v) :: rest else (k', v') :: pySetV rest k v

/-- Building a dict from a stream of key/value pairs (a Python dict
comprehension). -/
def pyDictOf (pairs : List (PyVal × PyVal)) : List (PyVal × PyVal) :=
  pairs.foldl (fun acc kv => pySetV acc kv.1 kv.2) []

/-! ## `afb.core.specs.obj_` -/

/-- `obj_.ObjectSpec` (the parsed form: raw manifest, factory key, inputs). -/
structure ObjectSpec where
  raw : PyVal
  key : PyVal
  inputs : PyVal

/-- `obj_.is_object_spec`: shallow format check.  A dict of length 1 whose key
is a string, or of length 2 whose key set is exactly `{"key", "inputs"}`. -/
def is_object_spec (v : PyVal) : Bool :=
  match v with
  | .dict [(.str _, _)] => true
  | .dict [(.str k1, _), (.str k2, _)] =>
    (k1 == "key" && k2 == "inputs") || (k1 == "inputs" && k2 == "key")
  | _ => false

/-- `ObjectSpec.parse`.  The two-entry form reads `spec["key"]`/`spec["inputs"]`
(`cls(spec, **spec)`), the singleton form reads the unique item. -/
def ObjectSpec.parse (v : PyVal) : Except Err ObjectSpec :=
  if is_object_spec v then
    match v with
    | .dict [(.str k, i)] => .ok ⟨v, .str k, i⟩
    | .dict [(.str k1, v1), (_, v2)] =>
      if k1 == "key" then .ok ⟨v, v1, v2⟩ else .ok ⟨v, v2, v1⟩
    | _ => .error .invalidFormat
  else .error .invalidFormat

/-- `obj_.is_direct_object`. -/
def is_direct_object (v : PyVal) (c : PyClass) : Bool :=
  match v with
  | .none => true
  | _ =>
    if ¬ isinstance v c then false
    else if c ≠ .dictCls then true
    else ¬ is_object_spec v

/-! ## `afb.core.specs.type_` : the type-spec grammar -/

/-- `type_.TypeSpec` as the tagged union its subclasses form:
`_ClassTypeSpec`, `_ListTypeSpec`, `_DictTypeSpec`, `_TupleTypeSpec`. -/
inductive TypeSpec where
  | classTS (c : PyClass)
  | listTS (elem : TypeSpec)
  | dictTS (key val : TypeSpec)
  | tupleTS (elems : List TypeSpec)

/-! ## `afb.core.factory` -/

/-- `param.ParameterSpec` in parsed form: the declared type spec, description,
and required flag. -/
structure ParameterSpec where
  type : TypeSpec
  description : String := ""
  required : Bool := false

/-- `fn_util.FnArgSpec`: the reflected parameter structure of a callable
(parameters without a default, parameters with one, and whether a `**kwargs`
catch-all sink is present). -/
structure FnArgSpec where
  required : List String
  optional : List String
  kwargs : Bool

/-- A Python callable together with its reflected argument structure. -/
structure PyCallable where
  argspec : FnArgSpec
  call : List (String × PyVal) → PyVal

/-- `factory.Signature`: ordered parameter specs (required first, then
optional) plus the set of required names. -/
structure Signature where
  ordered_param_specs : List (String × ParameterSpec)
  required : List String

/-- `Signature.names` (as the ordered key list; Python exposes it as a set). -/
def Signature.names (s : Signature) : List String :=
  s.ordered_param_specs.map Prod.fst

/-- `OrderedDict.pop(k)`: the value at `k` and the dict without that entry. -/
def popEntry {α : Type} (kvs : List (String × α)) (k : String) :
    Option (α × List (String × α)) :=
  match kvs with
  | [] => Option.none
  | (k', v) :: rest =>
    if k' = k then some (v, rest)
    else
      match popEntry rest k with
      | some (v', rest') => some (v', (k', v) :: rest')
      | Option.none => Option.none

/-- First loop of `Signature.create`: pop each required callable parameter from
the declared specs (collecting it into the `required` dict) and record the
names that are absent. -/
def splitRequired (ks : List String) (ps : List (String × ParameterSpec)) :
    List (String × ParameterSpec) × List (String × ParameterSpec) ×
      List String :=
  match ks with
  | [] => ([], ps, [])
  | k :: ks' =>
    match popEntry ps k with
    | some (p, rest) =>
      let (req, ps', miss) := splitRequired ks' rest
      ((k, p) :: req, ps', miss)
    | Option.none =>
      let (req, ps', miss) := splitRequired ks' ps
      (req, ps', k :: miss)

/-- Second loop of `Signature.create`: each optional callable parameter with a
declared spec is placed into `required` or `optional` by its declared flag
(`[optional, required][ps.required][k] = ps`). -/
def splitOptional (ks : List String) (ps : List (String × ParameterSpec)) :
    List (String × ParameterSpec) × List (String × ParameterSpec) ×
      List (String × ParameterSpec) :=
  match ks with
  | [] => ([], [], ps)
  | k :: ks' =>
    match popEntry ps k with
    | some (p, rest) =>
      let (req, opt, ps') := splitOptional ks' rest
      match p.required with
      | true => ((k, p) :: req, opt, ps')
      | false => (req, (k, p) :: opt, ps')
    | Option.none => splitOptional ks' ps

/-- Third loop of `Signature.create`: leftover declared keys (only reached when
the callable has a `**kwargs` sink) are placed by their declared flag. -/
def splitLeftover (ps : List (String × ParameterSpec)) :
    List (String × ParameterSpec) × List (String × ParameterSpec) :=
  match ps with
  | [] => ([], [])
  | (k, p) :: rest =>
    let (req, opt) := splitLeftover rest
    match p.required with
    | true => ((k, p) :: req, opt)
    | false => (req, (k, p) :: opt)

/-- `Signature.create`. -/
def Signature.create (fn : FnArgSpec) (ps0 : List (String × ParameterSpec)) :
    Except Err Signature :=
  let t1 := splitRequired fn.required ps0
  if t1.2.2 ≠ [] then .error (.signatureErr t1.2.2)
  else
    let t2 := splitOptional fn.optional t1.2.1
    if t2.2.2.isEmpty = false ∧ fn.kwargs = false then
      .error (.signatureErr (t2.2.2.map Prod.fst))
    else
      let t3 := splitLeftover t2.2.2
      let req := t1.1 ++ t2.1 ++ t3.1
      .ok ⟨req ++ (t2.2.1 ++ t3.2), req.map Prod.fst⟩

/-- `factory.Factory`: target class, wrapped callable, normalized signature and
declared defaults. -/
structure Factory where
  cls : PyClass
  fn : PyCallable
  sig : Signature
  defaults : List (String × PyVal)

/-- `Factory.merge_inputs`: layer declared defaults under the call-time
arguments, then reject unknown and missing-required names. -/
def Factory.merge_inputs (f : Factory) (kwargs : List (String × PyVal)) :
    Except Err (List (String × PyVal)) :=
  let merged := pyUpdate f.defaults kwargs
  let inv := (merged.map Prod.fst).filter (fun k => ¬ f.sig.names.contains k)
  if inv ≠ [] then .error (.argumentErr inv)
  else
    let missing :=
      f.sig.required.filter (fun k => ¬ (merged.map Prod.fst).contains k)
    if missing ≠ [] then .error (.argumentErr missing)
    else .ok merged

/-- `Factory.__call__`: invoke the wrapped callable and require the result to
be an instance of the target class. -/
def Factory.call (f : Factory) (kwargs : List (String × PyVal)) :
    Except Err PyVal :=
  let inst := f.fn.call kwargs
  if ¬ isinstance inst f.cls then
    .error (.typeMismatch (qualname f.cls) (qualname inst.typeOf))
  else .ok inst

/-- `fn_util.varargs_to_kwargs`: an even-length `[k1, v1, k2, v2, ...]` stream
becomes a kwargs dict (string keys required to pass `**` expansion). -/
def varargs_to_kwargs (args : List PyVal) : Except Err (List (String × PyVal)) :=
  if args.length % 2 = 1 then .error (.argumentErr [])
  else
    let rec pairs : List PyVal → Except Err (List (String × PyVal))
      | [] => .ok []
      | .str k :: v :: rest => do
        let tail ← pairs rest
        .ok ((k, v) :: tail)
      | _ :: _ :: _ => .error (.typeErr "keywords must be strings")
      | [_] => .error (.argumentErr [])
    do
      let kvs ← pairs args
      .ok (pyUpdate [] kvs)

/-! ## `afb.core.manufacturer` : the per-class registry -/

/-- Modelled from the spec: `builtins_.FACTORY_MAKERS` (its `__init__` module
is absent from the source; only `builtins_/from_config.py` with
`make_from_config` is present).  Every `Manufacturer` installs the single
builtin factory under the reserved key `afb/from_config`; its callable loads a
config file and re-enters `make`, which is I/O and therefore opaque here (the
verified claims never invoke it — only its identity as a registry entry
matters). -/
def make_from_config (cls : PyClass) : Factory :=
  { cls := cls
    fn := ⟨⟨["config"], [], false⟩, fun _ => PyVal.none⟩
    sig := ⟨[("config", ⟨.classTS .strCls, "Config file in YAML/JSON", true⟩)],
            ["config"]⟩
    defaults := [] }

/-- `manufacturer.Manufacturer` state: target class, the builtin and user
factory partitions, and the default key.  (The broker back-reference is passed
separately to the operations that read it.) -/
structure Mfr where
  cls : PyClass
  builtin_fcts : List (String × Factory)
  user_fcts : List (String × Factory)
  default : Option String

/-- `Manufacturer.__init__` followed by `_install_builtins`. -/
def Mfr.create (cls : PyClass) : Mfr :=
  ⟨cls, [(join_reserved "from_config", make_from_config cls)], [], Option.none⟩

/-- `Manufacturer.keys`: keys of user-provided factories. -/
def Mfr.keys (m : Mfr) : List String := m.user_fcts.map Prod.fst

/-- `Manufacturer.get`: reserved keys resolve only from the builtin partition,
all others only from the user partition. -/
def Mfr.get (m : Mfr) (key : String) : Option Factory :=
  if is_reserved key then m.builtin_fcts.lookup key else m.user_fcts.lookup key

/-- `Manufacturer._register` on the merge path (`signature is None` and the
factory is already a `Factory`): key-conflict check against the user
partition, then direct insertion. -/
def Mfr.register_merged (m : Mfr) (key : String) (fct : Factory)
    (override : Bool) : Except Err Mfr :=
  if (m.user_fcts.lookup key).isSome ∧ override = false then
    .error (.keyConflict [key])
  else .ok { m with user_fcts := pySet m.user_fcts key fct }

/-- `Manufacturer._register` on the normal path (public `register`, not
builtin): conflict check first, then `Factory` construction (where
`Signature.create` may fail), then insertion into the user partition. -/
def Mfr.register (m : Mfr) (key : String) (fn : PyCallable)
    (signature : List (String × ParameterSpec))
    (defaults : List (String × PyVal)) (override : Bool) : Except Err Mfr :=
  if (m.user_fcts.lookup key).isSome ∧ override = false then
    .error (.keyConflict [key])
  else
    match Signature.create fn.argspec signature with
    | .error e => .error e
    | .ok sig =>
      .ok { m with
            user_fcts := pySet m.user_fcts key ⟨m.cls, fn, sig, defaults⟩ }

/-- `manufacturer._merged_name`. -/
def merged_name (root : Option String) (name : String) (sep : String) :
    String :=
  match root with
  | Option.none => name
  | some r => r ++ sep ++ name

/-- Sorted list of strings (`sorted(...)` in the error messages). -/
def sortStr (l : List String) : List String :=
  List.insertionSort (· ≤ ·) l

/-- `Manufacturer._validate_merge`. -/
def Mfr.validate_merge (self : Mfr) (mfr : Mfr) (root : Option String)
    (override ignore_collision : Bool) (sep : String) : Except Err Unit :=
  if ¬ issubclass mfr.cls self.cls then
    .error (.typeErr (qualname mfr.cls))
  else if override || ignore_collision then .ok ()
  else
    let merged_names := mfr.keys.map (fun n => merged_name root n sep)
    let collisions :=
      merged_names.filter (fun n => (self.user_fcts.lookup n).isSome)
    if collisions.isEmpty then .ok ()
    else .error (.keyConflict (sortStr collisions.dedup))

/-- The loop body of `Manufacturer._merge`: register each of `mfr`'s user keys
under its merged name, skipping key conflicts when `ignore_collision`. A key
whose `get` comes back `None` (a reserved user key with no builtin counterpart)
fails `validate.is_callable` inside `_register` with a `TypeError`. -/
def Mfr.merge_loop (mfr : Mfr) (root : Option String)
    (override ignore_collision : Bool) (sep : String) :
    Mfr → List String → Except Err Mfr
  | acc, [] => .ok acc
  | acc, key :: rest =>
    match mfr.get key with
    | Option.none => .error (.typeErr "`factory` must be callable. Given: None")
    | some fct =>
      match acc.register_merged (merged_name root key sep) fct override with
      | .ok acc' => Mfr.merge_loop mfr root override ignore_collision sep acc' rest
      | .error (.keyConflict ks) =>
        if ignore_collision then
          Mfr.merge_loop mfr root override ignore_collision sep acc rest
        else .error (.keyConflict ks)
      | .error e => .error e

/-- `Manufacturer._merge`. -/
def Mfr.merge_impl (self : Mfr) (root : Option String) (mfr : Mfr)
    (override ignore_collision : Bool) (sep : String) : Except Err Mfr :=
  Mfr.merge_loop mfr root override ignore_collision sep self mfr.keys

/-- `Manufacturer.merge` (public): validate, then merge.  Defaults follow the
code (`override=False`, `ignore_collision=True`, `sep="/"`). -/
def Mfr.merge (self : Mfr) (mfr : Mfr) (root : Option String)
    (override : Bool := false) (ignore_collision : Bool := true)
    (sep : String := "/") : Except Err Mfr :=
  match self.validate_merge mfr root override ignore_collision sep with
  | .error e => .error e
  | .ok _ => self.merge_impl root mfr override ignore_collision sep

/-! ## Claim theorems -/

/-- Characterization of `is_object_spec`: true exactly on a singleton dict
with a string key, or a two-entry dict whose keys are `"key"`/`"inputs"`. -/
theorem is_object_spec_iff (v : PyVal) :
    is_object_spec v = true ↔
      (∃ k i, v = .dict [(.str k, i)]) ∨
      (∃ v1 v2, v = .dict [(.str "key", v1), (.str "inputs", v2)]
        ∨ v = .dict [(.str "inputs", v1), (.str "key", v2)]) := by
  constructor
  · intro h
    cases v with
    | dict kvs =>
      rcases kvs with _ | ⟨⟨k1, i1⟩, _ | ⟨⟨k2, i2⟩, _ | ⟨p3, rest⟩⟩⟩
      · simp [is_object_spec] at h
      · cases k1 <;> simp [is_object_spec] at h
        rename_i s
        exact Or.inl ⟨s, i1, rfl⟩
      · cases k1 <;> cases k2 <;> simp [is_object_spec] at h
        rename_i s1 s2
        rcases h with ⟨rfl, rfl⟩ | ⟨rfl, rfl⟩
        · exact Or.inr ⟨i1, i2, Or.inl rfl⟩
        · exact Or.inr ⟨i1, i2, Or.inr rfl⟩
      · simp [is_object_spec] at h
    | none => simp [is_object_spec] at h
    | int n => simp [is_object_spec] at h
    | bool b => simp [is_object_spec] at h
    | str s => simp [is_object_spec] at h
    | list xs => simp [is_object_spec] at h
    | tuple xs => simp [is_object_spec] at h
    | obj c f => simp [is_object_spec] at h
  · rintro (⟨k, i, rfl⟩ | ⟨v1, v2, rfl | rfl⟩) <;> simp [is_object_spec]

/-- C10: `ObjectSpec.parse` accepts exactly two dict shapes — a one-entry dict
whose single key is a string (parsed as `{factory_key: inputs}`), and a
two-entry dict whose key set is exactly `{"key", "inputs"}` — and every other
value raises `InvalidFormatError`; such values are also never classified as
object specs by `is_object_spec`. -/
theorem C10_objectSpec_parse_exact_shapes (v : PyVal) :
    (∀ k i, v = .dict [(.str k, i)] → ObjectSpec.parse v = .ok ⟨v, .str k, i⟩)
    ∧ (∀ v1 v2, v = .dict [(.str "key", v1), (.str "inputs", v2)] →
        ObjectSpec.parse v = .ok ⟨v, v1, v2⟩)
    ∧ (∀ v1 v2, v = .dict [(.str "inputs", v1), (.str "key", v2)] →
        ObjectSpec.parse v = .ok ⟨v, v2, v1⟩)
    ∧ (is_object_spec v = false →
        ObjectSpec.parse v = .error .invalidFormat)
    ∧ (is_object_spec v = true ↔
        (∃ k i, v = .dict [(.str k, i)]) ∨
        (∃ v1 v2, v = .dict [(.str "key", v1), (.str "inputs", v2)]
          ∨ v = .dict [(.str "inputs", v1), (.str "key", v2)])) := by
  refine ⟨?_, ?_, ?_, ?_, is_object_spec_iff v⟩
  · rintro k i rfl
    simp [ObjectSpec.parse, is_object_spec]
  · rintro v1 v2 rfl
    simp [ObjectSpec.parse, is_object_spec]
  · rintro v1 v2 rfl
    simp [ObjectSpec.parse, is_object_spec]
  · intro h
    simp [ObjectSpec.parse, h]

/-- Witness for C10 at concrete inputs: the singleton shape parses, and a
three-entry dict raises `InvalidFormatError`. -/
theorem C10_witness :
    ObjectSpec.parse (.dict [(.str "f", .int 1)]) =
      .ok ⟨.dict [(.str "f", .int 1)], .str "f", .int 1⟩
    ∧ ObjectSpec.parse
        (.dict [(.str "a", .none), (.str "b", .none), (.str "c", .none)]) =
      .error .invalidFormat := by
  exact ⟨(C10_objectSpec_parse_exact_shapes _).1 "f" (.int 1) rfl,
    (C10_objectSpec_parse_exact_shapes _).2.2.2.1 rfl⟩

/-- Setting a key always makes it the stored value found by lookup. -/
theorem lookup_pySet_self {α : Type} (l : List (String × α)) (k : String)
    (v : α) : (pySet l k v).lookup k = some v := by
  induction l with
  | nil => simp [pySet]
  | cons kv rest ih =>
    obtain ⟨k', v'⟩ := kv
    by_cases h : k' = k
    · subst h; simp [pySet, List.lookup]
    · have h2 : (k == k') = false := by simpa using Ne.symm h
      simp [pySet, h, List.lookup, h2, ih]

/-- Setting one key leaves lookups of other keys unchanged. -/
theorem lookup_pySet_other {α : Type} (l : List (String × α)) (k k' : String)
    (v : α) (h : k' ≠ k) : (pySet l k v).lookup k' = l.lookup k' := by
  have h2 : (k' == k) = false := by simpa using h
  induction l with
  | nil => simp [pySet, List.lookup, h2]
  | cons kv rest ih =>
    obtain ⟨k0, v0⟩ := kv
    by_cases h0 : k0 = k
    · subst h0; simp [pySet, List.lookup, h2]
    · simp [pySet, h0, List.lookup, ih]

/-- A key that occurs in the key list is found by lookup. -/
theorem lookup_isSome_of_mem_keys {α : Type} (l : List (String × α))
    (k : String) (h : k ∈ l.map Prod.fst) : (l.lookup k).isSome := by
  induction l with
  | nil => simp at h
  | cons kv rest ih =>
    obtain ⟨k0, v0⟩ := kv
    by_cases hk : k = k0
    · simp [List.lookup, hk]
    · have hbe : (k == k0) = false := by simpa using hk
      have hmem : k ∈ rest.map Prod.fst := by
        rcases List.mem_cons.mp h with h1 | h2
        · exact absurd h1 hk
        · exact h2
      simp [List.lookup, hbe, ih hmem]

/-- A successful lookup names an entry of the list. -/
theorem mem_of_lookup_some {α : Type} :
    ∀ (l : List (String × α)) (k : String) (v : α),
      l.lookup k = some v → (k, v) ∈ l := by
  intro l
  induction l with
  | nil => intro k v h; simp [List.lookup] at h
  | cons kv rest ih =>
    obtain ⟨k0, v0⟩ := kv
    intro k v h
    by_cases hk : k = k0
    · subst hk
      simp [List.lookup] at h
      simp [h]
    · have hbe : (k == k0) = false := by simpa using hk
      simp only [List.lookup, hbe] at h
      exact List.mem_cons_of_mem _ (ih k v h)

/-- C3 (amended): `Factory.__call__` returns the callable's result unmodified
exactly when it is an instance of the target class, and otherwise raises a
type-mismatch `TypeError` naming the expected and actual classes.  A `None`
result is *not* accepted (`isinstance(None, cls)` is false for every embedded
target class): the claim's "None or an instance" clause fails on the code. -/
theorem C3_factory_call_type_check (f : Factory)
    (kwargs : List (String × PyVal)) :
    (isinstance (f.fn.call kwargs) f.cls = true →
      Factory.call f kwargs = .ok (f.fn.call kwargs))
    ∧ (isinstance (f.fn.call kwargs) f.cls = false →
      Factory.call f kwargs =
        .error (.typeMismatch (qualname f.cls)
          (qualname (f.fn.call kwargs).typeOf))) := by
  constructor <;> intro h <;> simp [Factory.call, h]

/-- A factory for user class `A` whose callable returns `None`. -/
def noneReturningFactory : Factory :=
  { cls := .user "A"
    fn := ⟨⟨[], [], false⟩, fun _ => PyVal.none⟩
    sig := ⟨[], []⟩
    defaults := [] }

/-- A factory for user class `A` whose callable returns an `A` instance. -/
def okReturningFactory : Factory :=
  { cls := .user "A"
    fn := ⟨⟨[], [], false⟩, fun _ => PyVal.obj "A" []⟩
    sig := ⟨[], []⟩
    defaults := [] }

/-- C3 counterexample: a registered unit whose callable returns `None` does
not have the result accepted — `Factory.__call__` raises the type-mismatch
`TypeError` (the claim states `None` is accepted and returned). -/
theorem C3_counterexample :
    Factory.call noneReturningFactory [] =
      .error (.typeMismatch "A" "NoneType") := rfl

/-- Witness for C3 at concrete factories: both branches of the amended
theorem. -/
theorem C3_witness :
    Factory.call okReturningFactory [] = .ok (.obj "A" [])
    ∧ Factory.call noneReturningFactory [] =
        .error (.typeMismatch "A" "NoneType") :=
  ⟨(C3_factory_call_type_check okReturningFactory []).1 rfl,
   (C3_factory_call_type_check noneReturningFactory []).2 rfl⟩

/-- C9: registering under an existing key without `override` raises
`KeyConflictError` (the original factory stays registered), while registering
with `override=True` replaces it, so `get` afterwards returns the factory of
the second registration. -/
theorem C9_register_conflict_and_override (m : Mfr) (key : String)
    (c1 c2 : PyCallable) (sig1 sig2 : List (String × ParameterSpec))
    (d1 d2 : List (String × PyVal)) (s1 s2 : Signature)
    (hres : is_reserved key = false)
    (hfresh : m.user_fcts.lookup key = Option.none)
    (hs1 : Signature.create c1.argspec sig1 = .ok s1)
    (hs2 : Signature.create c2.argspec sig2 = .ok s2) :
    ∃ m1, m.register key c1 sig1 d1 false = .ok m1 ∧
      m1.get key = some ⟨m.cls, c1, s1, d1⟩ ∧
      m1.register key c2 sig2 d2 false = .error (.keyConflict [key]) ∧
      ∃ m2, m1.register key c2 sig2 d2 true = .ok m2 ∧
        m2.get key = some ⟨m.cls, c2, s2, d2⟩ := by
  refine ⟨{ m with user_fcts := pySet m.user_fcts key ⟨m.cls, c1, s1, d1⟩ },
    ?_, ?_, ?_, ?_⟩
  · simp [Mfr.register, hfresh, hs1]
  · simp [Mfr.get, hres, lookup_pySet_self]
  · simp [Mfr.register, lookup_pySet_self]
  · refine ⟨{ m with user_fcts := (pySet (pySet m.user_fcts key ⟨m.cls, c1, s1, d1⟩) key ⟨m.cls, c2, s2, d2⟩) }, ?_, ?_⟩
    · simp [Mfr.register, hs2]
    · simp [Mfr.get, hres, lookup_pySet_self]

/-- Witness for C9 on a concrete manufacturer and factories. -/
theorem C9_witness :
    ∃ m1, (Mfr.create (.user "A")).register "k"
        ⟨⟨[], [], false⟩, fun _ => PyVal.obj "A" []⟩ [] [] false = .ok m1 ∧
      m1.get "k" = some ⟨.user "A", ⟨⟨[], [], false⟩,
        fun _ => PyVal.obj "A" []⟩, ⟨[], []⟩, []⟩ ∧
      m1.register "k" ⟨⟨[], [], false⟩, fun _ => PyVal.obj "A" [.int 1]⟩
          [] [] false = .error (.keyConflict ["k"]) ∧
      ∃ m2, m1.register "k"
          ⟨⟨[], [], false⟩, fun _ => PyVal.obj "A" [.int 1]⟩ [] [] true =
            .ok m2 ∧
        m2.get "k" = some ⟨.user "A", ⟨⟨[], [], false⟩,
          fun _ => PyVal.obj "A" [.int 1]⟩, ⟨[], []⟩, []⟩ :=
  C9_register_conflict_and_override (Mfr.create (.user "A")) "k"
    ⟨⟨[], [], false⟩, fun _ => PyVal.obj "A" []⟩
    ⟨⟨[], [], false⟩, fun _ => PyVal.obj "A" [.int 1]⟩
    [] [] [] [] ⟨[], []⟩ ⟨[], []⟩ (by decide) rfl rfl rfl

/-! ### Lemmas on `popEntry` and the `Signature.create` loops -/

theorem popEntry_eq_none_iff {α : Type} (ps : List (String × α)) (k : String) :
    popEntry ps k = Option.none ↔ k ∉ ps.map Prod.fst := by
  induction ps with
  | nil => simp [popEntry]
  | cons kv rest ih =>
    obtain ⟨k', v⟩ := kv
    by_cases h : k' = k
    · subst h; simp [popEntry]
    · simp only [popEntry, if_neg h, List.map_cons, List.mem_cons]
      cases hpe : popEntry rest k with
      | none =>
        simp only [hpe]
        constructor
        · intro _
          rintro (rfl | hk)
          · exact h rfl
          · exact (ih.mp hpe) hk
        · intro _; trivial
      | some p =>
        obtain ⟨v', rest'⟩ := p
        simp only [hpe]
        constructor
        · intro hcontr; exact absurd hcontr (by simp)
        · intro hnot
          exfalso
          refine hnot (Or.inr ?_)
          by_contra hk
          rw [ih.mpr hk] at hpe
          exact absurd hpe (by simp)

theorem popEntry_some_spec {α : Type} :
    ∀ (ps : List (String × α)) (k : String) (v : α)
      (rest : List (String × α)), popEntry ps k = some (v, rest) →
      (k, v) ∈ ps ∧ rest.map Prod.fst = (ps.map Prod.fst).erase k ∧
        ∀ kv ∈ rest, kv ∈ ps := by
  intro ps
  induction ps with
  | nil => intro k v rest h; simp [popEntry] at h
  | cons kv0 tail ih =>
    obtain ⟨k0, v0⟩ := kv0
    intro k v rest h
    by_cases hk : k0 = k
    · subst hk
      simp only [popEntry, if_pos rfl, Option.some.injEq, Prod.mk.injEq] at h
      obtain ⟨rfl, rfl⟩ := h
      refine ⟨List.mem_cons_self _ _, ?_, fun kv hkv => List.mem_cons_of_mem _ hkv⟩
      simp
    · simp only [popEntry, if_neg hk] at h
      cases hpe : popEntry tail k with
      | none => rw [hpe] at h; exact absurd h (by simp)
      | some p =>
        obtain ⟨v', rest'⟩ := p
        rw [hpe] at h
        simp only [Option.some.injEq, Prod.mk.injEq] at h
        obtain ⟨hv, hrest⟩ := h
        subst hv
        subst hrest
        obtain ⟨hmem, herase, hsub⟩ := ih _ _ _ hpe
        refine ⟨List.mem_cons_of_mem _ hmem, ?_, ?_⟩
        · have hne : (k0 == k) = false := by simpa using hk
          simp [List.erase_cons, hne, herase]
        · intro kv hkv
          rcases List.mem_cons.mp hkv with h1 | h2
          · exact List.mem_cons.mpr (Or.inl h1)
          · exact List.mem_cons.mpr (Or.inr (hsub kv h2))

theorem popEntry_some_filter {α : Type} :
    ∀ (ps : List (String × α)) (k : String) (v : α)
      (rest : List (String × α)), (ps.map Prod.fst).Nodup →
      popEntry ps k = some (v, rest) →
      rest = ps.filter (fun kv => kv.1 != k) := by
  intro ps
  induction ps with
  | nil => intro k v rest _ h; simp [popEntry] at h
  | cons kv0 tail ih =>
    obtain ⟨k0, v0⟩ := kv0
    intro k v rest hnd h
    by_cases hk : k0 = k
    · subst hk
      simp only [popEntry, if_pos rfl, Option.some.injEq, Prod.mk.injEq] at h
      obtain ⟨rfl, rfl⟩ := h
      simp only [List.map_cons, List.nodup_cons] at hnd
      have hall : ∀ kv ∈ tail, (kv.1 != k0) = true := by
        intro kv hkv
        have hne : kv.1 ≠ k0 := by
          intro heq
          exact hnd.1 (heq ▸ List.mem_map_of_mem Prod.fst hkv)
        simpa using hne
      have hfe : List.filter (fun kv => kv.1 != k0) ((k0, v0) :: tail) =
          tail := by
        rw [List.filter_cons]
        simp [List.filter_eq_self.mpr hall]
      exact hfe.symm
    · simp only [popEntry, if_neg hk] at h
      cases hpe : popEntry tail k with
      | none => rw [hpe] at h; exact absurd h (by simp)
      | some p =>
        obtain ⟨v', rest'⟩ := p
        rw [hpe] at h
        simp only [Option.some.injEq, Prod.mk.injEq] at h
        obtain ⟨hv, hrest⟩ := h
        subst hv
        subst hrest
        simp only [List.map_cons, List.nodup_cons] at hnd
        have hrest' := ih _ _ _ hnd.2 hpe
        rw [List.filter_cons, if_pos (by simpa using hk), hrest']

theorem mem_map_fst_of_popEntry_some {α : Type} {ps : List (String × α)}
    {k : String} {v : α} {rest : List (String × α)}
    (hpe : popEntry ps k = some (v, rest)) : k ∈ ps.map Prod.fst := by
  by_contra hk
  rw [(popEntry_eq_none_iff ps k).mpr hk] at hpe
  exact absurd hpe (by simp)

theorem nodup_keys_of_popEntry_some {α : Type} {ps : List (String × α)}
    {k : String} {v : α} {rest : List (String × α)}
    (hps : (ps.map Prod.fst).Nodup) (hpe : popEntry ps k = some (v, rest)) :
    (rest.map Prod.fst).Nodup := by
  rw [popEntry_some_filter ps k v rest hps hpe]
  exact hps.sublist (List.Sublist.map Prod.fst (List.filter_sublist ps))

theorem splitRequired_spec :
    ∀ (ks : List String) (ps : List (String × ParameterSpec)),
      ks.Nodup → (ps.map Prod.fst).Nodup →
      (splitRequired ks ps).2.2 =
          ks.filter (fun k => decide (k ∉ ps.map Prod.fst))
        ∧ (splitRequired ks ps).1.map Prod.fst =
          ks.filter (fun k => decide (k ∈ ps.map Prod.fst))
        ∧ (splitRequired ks ps).2.1 =
          ps.filter (fun kv => decide (kv.1 ∉ ks)) := by
  intro ks
  induction ks with
  | nil => intro ps _ _; simp [splitRequired]
  | cons k ks' ih =>
    intro ps hks hps
    simp only [List.nodup_cons] at hks
    cases hpe : popEntry ps k with
    | none =>
      have hk_not : k ∉ ps.map Prod.fst := (popEntry_eq_none_iff ps k).mp hpe
      obtain ⟨ih1, ih2, ih3⟩ := ih ps hks.2 hps
      simp only [splitRequired, hpe]
      refine ⟨?_, ?_, ?_⟩
      · rw [List.filter_cons, if_pos (by simpa using hk_not)]
        rw [ih1]
      · rw [List.filter_cons, if_neg (by simpa using hk_not)]
        rw [ih2]
      · rw [ih3]
        apply List.filter_congr
        intro kv hkv
        have hne : kv.1 ≠ k :=
          fun heq => hk_not (heq ▸ List.mem_map_of_mem Prod.fst hkv)
        rw [decide_eq_decide]
        simp [List.mem_cons, hne]
    | some p =>
      obtain ⟨v, rest⟩ := p
      have hmem : k ∈ ps.map Prod.fst := mem_map_fst_of_popEntry_some hpe
      have herase := (popEntry_some_spec ps k v rest hpe).2.1
      have hfilter := popEntry_some_filter ps k v rest hps hpe
      have hrest_nd : (rest.map Prod.fst).Nodup :=
        nodup_keys_of_popEntry_some hps hpe
      obtain ⟨ih1, ih2, ih3⟩ := ih rest hks.2 hrest_nd
      have hmem_iff : ∀ k', k' ≠ k →
          (k' ∈ rest.map Prod.fst ↔ k' ∈ ps.map Prod.fst) := by
        intro k' hne
        rw [herase]
        exact List.mem_erase_of_ne hne
      simp only [splitRequired, hpe]
      refine ⟨?_, ?_, ?_⟩
      · rw [List.filter_cons, if_neg (by simpa using hmem), ih1]
        apply List.filter_congr
        intro k' hk'
        have hne : k' ≠ k := fun heq => hks.1 (heq ▸ hk')
        rw [decide_eq_decide]
        rw [hmem_iff k' hne]
      · rw [List.filter_cons, if_pos (by simpa using hmem)]
        simp only [List.map_cons]
        rw [ih2]
        have hcong : List.filter (fun k' => decide (k' ∈ rest.map Prod.fst))
            ks' = List.filter (fun k' => decide (k' ∈ ps.map Prod.fst)) ks' := by
          apply List.filter_congr
          intro k' hk'
          have hne : k' ≠ k := fun heq => hks.1 (heq ▸ hk')
          rw [decide_eq_decide]
          exact hmem_iff k' hne
        rw [hcong]
      · rw [ih3, hfilter, List.filter_filter]
        apply List.filter_congr
        intro kv hkv
        rw [Bool.and_comm]
        rcases eq_or_ne kv.1 k with heq | hne
        · simp [heq]
        · simp [List.mem_cons, hne]

theorem splitOptional_spec :
    ∀ (ks : List String) (ps : List (String × ParameterSpec)),
      ks.Nodup → (ps.map Prod.fst).Nodup →
      (splitOptional ks ps).2.2 =
          ps.filter (fun kv => decide (kv.1 ∉ ks))
        ∧ (∀ p ∈ (splitOptional ks ps).1, p.2.required = true)
        ∧ (∀ p ∈ (splitOptional ks ps).2.1, p.2.required = false)
        ∧ (∀ kv ∈ ps, kv.1 ∈ ks →
            kv.1 ∈ ((splitOptional ks ps).1 ++ (splitOptional ks ps).2.1).map
              Prod.fst) := by
  intro ks
  induction ks with
  | nil =>
    intro ps _ _
    simp [splitOptional]
  | cons k ks' ih =>
    intro ps hks hps
    simp only [List.nodup_cons] at hks
    cases hpe : popEntry ps k with
    | none =>
      have hk_not : k ∉ ps.map Prod.fst := (popEntry_eq_none_iff ps k).mp hpe
      obtain ⟨ih1, ih2, ih3, ih4⟩ := ih ps hks.2 hps
      simp only [splitOptional, hpe]
      refine ⟨?_, ih2, ih3, ?_⟩
      · rw [ih1]
        apply List.filter_congr
        intro kv hkv
        have hne : kv.1 ≠ k :=
          fun heq => hk_not (heq ▸ List.mem_map_of_mem Prod.fst hkv)
        rw [decide_eq_decide]
        simp [List.mem_cons, hne]
      · intro kv hkv hk1
        rcases List.mem_cons.mp hk1 with heq | htail
        · exact absurd (heq ▸ List.mem_map_of_mem Prod.fst hkv) hk_not
        · exact ih4 kv hkv htail
    | some p =>
      obtain ⟨v, rest⟩ := p
      have hentry : (k, v) ∈ ps := (popEntry_some_spec ps k v rest hpe).1
      have hfilter := popEntry_some_filter ps k v rest hps hpe
      have hrest_nd : (rest.map Prod.fst).Nodup :=
        nodup_keys_of_popEntry_some hps hpe
      obtain ⟨ih1, ih2, ih3, ih4⟩ := ih rest hks.2 hrest_nd
      have hps2 : (splitOptional ks' rest).2.2 =
          ps.filter (fun kv => decide (kv.1 ∉ k :: ks')) := by
        rw [ih1, hfilter, List.filter_filter]
        apply List.filter_congr
        intro kv hkv
        rw [Bool.and_comm]
        rcases eq_or_ne kv.1 k with heq | hne
        · simp [heq]
        · simp [List.mem_cons, hne]
      have hcover : ∀ kv ∈ ps, kv.1 ∈ k :: ks' → kv.1 = k ∨
          kv.1 ∈ ((splitOptional ks' rest).1 ++
            (splitOptional ks' rest).2.1).map Prod.fst := by
        intro kv hkv hk1
        by_cases hkv_k : kv.1 = k
        · exact Or.inl hkv_k
        · rcases List.mem_cons.mp hk1 with heq | htail
          · exact absurd heq hkv_k
          · have hkv_rest : kv ∈ rest := by
              rw [hfilter]
              exact List.mem_filter.mpr ⟨hkv, by simpa using hkv_k⟩
            exact Or.inr (ih4 kv hkv_rest htail)
      cases hreq : v.required with
      | true =>
        simp only [splitOptional, hpe, hreq]
        refine ⟨hps2, ?_, ih3, ?_⟩
        · intro p hp
          rcases List.mem_cons.mp hp with heq | htail
          · rw [heq]; exact hreq
          · exact ih2 p htail
        · intro kv hkv hk1
          simp only [List.map_append, List.map_cons, List.mem_append,
            List.mem_cons]
          rcases hcover kv hkv hk1 with heq | hmem
          · exact Or.inl (Or.inl heq)
          · simp only [List.map_append, List.mem_append] at hmem
            rcases hmem with ha | hb
            · exact Or.inl (Or.inr ha)
            · exact Or.inr hb
      | false =>
        simp only [splitOptional, hpe, hreq]
        refine ⟨hps2, ih2, ?_, ?_⟩
        · intro p hp
          rcases List.mem_cons.mp hp with heq | htail
          · rw [heq]; exact hreq
          · exact ih3 p htail
        · intro kv hkv hk1
          simp only [List.map_append, List.map_cons, List.mem_append,
            List.mem_cons]
          rcases hcover kv hkv hk1 with heq | hmem
          · exact Or.inr (Or.inl heq)
          · simp only [List.map_append, List.mem_append] at hmem
            rcases hmem with ha | hb
            · exact Or.inl ha
            · exact Or.inr (Or.inr hb)

theorem splitLeftover_spec (ps : List (String × ParameterSpec)) :
    (∀ p ∈ (splitLeftover ps).1, p.2.required = true)
    ∧ (∀ p ∈ (splitLeftover ps).2, p.2.required = false)
    ∧ (∀ kv ∈ ps,
        kv.1 ∈ ((splitLeftover ps).1 ++ (splitLeftover ps).2).map Prod.fst) := by
  induction ps with
  | nil => simp [splitLeftover]
  | cons kv0 rest ih =>
    obtain ⟨k0, p0⟩ := kv0
    obtain ⟨ih1, ih2, ih3⟩ := ih
    cases hreq : p0.required with
    | true =>
      simp only [splitLeftover, hreq]
      refine ⟨?_, ih2, ?_⟩
      · intro p hp
        rcases List.mem_cons.mp hp with heq | htail
        · rw [heq]; exact hreq
        · exact ih1 p htail
      · intro kv hkv
        simp only [List.map_append, List.map_cons, List.mem_append,
          List.mem_cons]
        rcases List.mem_cons.mp hkv with heq | htail
        · exact Or.inl (Or.inl (by rw [heq]))
        · have hcov := ih3 kv htail
          simp only [List.map_append, List.mem_append] at hcov
          rcases hcov with ha | hb
          · exact Or.inl (Or.inr ha)
          · exact Or.inr hb
    | false =>
      simp only [splitLeftover, hreq]
      refine ⟨ih1, ?_, ?_⟩
      · intro p hp
        rcases List.mem_cons.mp hp with heq | htail
        · rw [heq]; exact hreq
        · exact ih2 p htail
      · intro kv hkv
        simp only [List.map_append, List.map_cons, List.mem_append,
          List.mem_cons]
        rcases List.mem_cons.mp hkv with heq | htail
        · exact Or.inr (Or.inl (by rw [heq]))
        · have hcov := ih3 kv htail
          simp only [List.map_append, List.mem_append] at hcov
          rcases hcov with ha | hb
          · exact Or.inl ha
          · exact Or.inr (Or.inr hb)
/-- C8 (amended): `Signature.create` (i) fails with a `SignatureError` listing
every required callable parameter absent from the declared signature dict;
(ii) fails with a `SignatureError` listing every declared key unknown to the
callable when there is no `**kwargs` sink; (iii) on success orders required
keys first, then optional ones; (iv) with a `**kwargs` sink every declared key
is accepted — but a sink key is placed by its *declared* `required` flag
(`[optional, required][ps.required]`), not unconditionally as optional. -/
theorem C8_signature_create (fn : FnArgSpec)
    (ps0 : List (String × ParameterSpec))
    (hreq_nd : fn.required.Nodup) (hopt_nd : fn.optional.Nodup)
    (hps_nd : (ps0.map Prod.fst).Nodup) :
    (fn.required.filter (fun k => decide (k ∉ ps0.map Prod.fst)) ≠ [] →
      Signature.create fn ps0 =
        .error (.signatureErr
          (fn.required.filter (fun k => decide (k ∉ ps0.map Prod.fst)))))
    ∧ ((∀ k ∈ fn.required, k ∈ ps0.map Prod.fst) → fn.kwargs = false →
        ps0.filter
            (fun kv => decide (kv.1 ∉ fn.required ++ fn.optional)) ≠ [] →
        Signature.create fn ps0 =
          .error (.signatureErr
            ((ps0.filter
              (fun kv => decide (kv.1 ∉ fn.required ++ fn.optional))).map
                Prod.fst)))
    ∧ (∀ s, Signature.create fn ps0 = .ok s →
        ∃ reqPart optPart,
          s.ordered_param_specs = reqPart ++ optPart ∧
          s.required = reqPart.map Prod.fst ∧
          (∀ p ∈ optPart, p.2.required = false) ∧
          (∀ p ∈ reqPart, p.1 ∈ fn.required ∨ p.2.required = true))
    ∧ ((∀ k ∈ fn.required, k ∈ ps0.map Prod.fst) → fn.kwargs = true →
        ∃ s, Signature.create fn ps0 = .ok s ∧
          ∀ kv ∈ ps0, kv.1 ∈ s.names) := by
  obtain ⟨hm, hr, hp⟩ := splitRequired_spec fn.required ps0 hreq_nd hps_nd
  have hps1_nd : ((splitRequired fn.required ps0).2.1.map Prod.fst).Nodup := by
    rw [hp]
    exact hps_nd.sublist (List.Sublist.map Prod.fst (List.filter_sublist ps0))
  obtain ⟨ho1, ho2, ho3, ho4⟩ :=
    splitOptional_spec fn.optional (splitRequired fn.required ps0).2.1
      hopt_nd hps1_nd
  obtain ⟨hl1, hl2, hl3⟩ :=
    splitLeftover_spec
      (splitOptional fn.optional (splitRequired fn.required ps0).2.1).2.2
  have hps2 : (splitOptional fn.optional
      (splitRequired fn.required ps0).2.1).2.2 =
      ps0.filter (fun kv => decide (kv.1 ∉ fn.required ++ fn.optional)) := by
    rw [ho1, hp, List.filter_filter]
    apply List.filter_congr
    intro kv _
    simp [List.mem_append, not_or, Bool.and_comm]
  refine ⟨?_, ?_, ?_, ?_⟩
  · intro hne
    simp only [Signature.create]
    rw [hm, if_pos hne]
  · intro hall hkw hne2
    have hmfe : fn.required.filter
        (fun k => decide (k ∉ ps0.map Prod.fst)) = [] := by
      apply List.filter_eq_nil_iff.mpr
      intro k hk
      simpa using hall k hk
    simp only [Signature.create]
    rw [hm, hmfe, if_neg (by simp)]
    rw [hps2]
    have hie : (ps0.filter
        (fun kv => decide (kv.1 ∉ fn.required ++ fn.optional))).isEmpty =
        false := by
      cases hcase : (ps0.filter
          (fun kv => decide (kv.1 ∉ fn.required ++ fn.optional))) with
      | nil => exact absurd hcase hne2
      | cons a l => simp
    rw [if_pos ⟨hie, hkw⟩]
  · intro s hs
    simp only [Signature.create] at hs
    by_cases h1 : (splitRequired fn.required ps0).2.2 ≠ []
    · rw [if_pos h1] at hs; exact absurd hs (by simp)
    · rw [if_neg h1] at hs
      by_cases h2 : (splitOptional fn.optional
          (splitRequired fn.required ps0).2.1).2.2.isEmpty = false ∧
          fn.kwargs = false
      · rw [if_pos h2] at hs; exact absurd hs (by simp)
      · rw [if_neg h2] at hs
        simp only [Except.ok.injEq] at hs
        refine ⟨(splitRequired fn.required ps0).1 ++
            (splitOptional fn.optional (splitRequired fn.required ps0).2.1).1
              ++ (splitLeftover (splitOptional fn.optional
                (splitRequired fn.required ps0).2.1).2.2).1,
          (splitOptional fn.optional (splitRequired fn.required ps0).2.1).2.1
            ++ (splitLeftover (splitOptional fn.optional
              (splitRequired fn.required ps0).2.1).2.2).2, ?_, ?_, ?_, ?_⟩
        · exact congrArg Signature.ordered_param_specs hs.symm
        · exact congrArg Signature.required hs.symm
        · intro p hp2
          rcases List.mem_append.mp hp2 with ha | hb
          · exact ho3 p ha
          · exact hl2 p hb
        · intro p hp2
          rcases List.mem_append.mp hp2 with hab | hc
          · rcases List.mem_append.mp hab with ha | hb
            · left
              have : p.1 ∈ (splitRequired fn.required ps0).1.map Prod.fst :=
                List.mem_map_of_mem Prod.fst ha
              rw [hr] at this
              exact (List.mem_filter.mp this).1
            · right; exact ho2 p hb
          · right; exact hl1 p hc
  · intro hall hkw
    have hmfe : fn.required.filter
        (fun k => decide (k ∉ ps0.map Prod.fst)) = [] := by
      apply List.filter_eq_nil_iff.mpr
      intro k hk
      simpa using hall k hk
    refine ⟨⟨((splitRequired fn.required ps0).1 ++
        (splitOptional fn.optional (splitRequired fn.required ps0).2.1).1 ++
        (splitLeftover (splitOptional fn.optional
          (splitRequired fn.required ps0).2.1).2.2).1) ++
        ((splitOptional fn.optional (splitRequired fn.required ps0).2.1).2.1
          ++ (splitLeftover (splitOptional fn.optional
            (splitRequired fn.required ps0).2.1).2.2).2),
      ((splitRequired fn.required ps0).1 ++
        (splitOptional fn.optional (splitRequired fn.required ps0).2.1).1 ++
        (splitLeftover (splitOptional fn.optional
          (splitRequired fn.required ps0).2.1).2.2).1).map Prod.fst⟩,
      ?_, ?_⟩
    · simp only [Signature.create]
      rw [hm, hmfe, if_neg (by simp), if_neg (by simp [hkw])]
    · intro kv hkv
      simp only [Signature.names, List.map_append, List.mem_append]
      by_cases hkreq : kv.1 ∈ fn.required
      · left; left; left
        have : kv.1 ∈ fn.required.filter
            (fun k => decide (k ∈ ps0.map Prod.fst)) :=
          List.mem_filter.mpr
            ⟨hkreq, by simpa using List.mem_map_of_mem Prod.fst hkv⟩
        rw [← hr] at this
        exact this
      · have hkv1 : kv ∈ (splitRequired fn.required ps0).2.1 := by
          rw [hp]
          exact List.mem_filter.mpr ⟨hkv, by simpa using hkreq⟩
        by_cases hkopt : kv.1 ∈ fn.optional
        · have := ho4 kv hkv1 hkopt
          simp only [List.map_append, List.mem_append] at this
          rcases this with ha | hb
          · exact Or.inl (Or.inl (Or.inr ha))
          · exact Or.inr (Or.inl hb)
        · have hkv2 : kv ∈ (splitOptional fn.optional
              (splitRequired fn.required ps0).2.1).2.2 := by
            rw [ho1]
            exact List.mem_filter.mpr ⟨hkv1, by simpa using hkopt⟩
          have := hl3 kv hkv2
          simp only [List.map_append, List.mem_append] at this
          rcases this with ha | hb
          · exact Or.inl (Or.inr ha)
          · exact Or.inr (Or.inr hb)

/-- C8 counterexample: a callable with only a `**kwargs` sink and a declared
signature key `"extra"` flagged `required: True` — the created signature puts
`"extra"` in the *required* set (the claim says a sink key is accepted as
optional). -/
theorem C8_counterexample :
    Signature.create ⟨[], [], true⟩
        [("extra", ⟨.classTS .intCls, "", true⟩)] =
      .ok ⟨[("extra", ⟨.classTS .intCls, "", true⟩)], ["extra"]⟩ := rfl

/-- Witness for C8: a missing required parameter errors listing it, and a
`**kwargs` sink accepts an undeclared-in-the-callable key. -/
theorem C8_witness :
    Signature.create ⟨["x"], [], false⟩ [] = .error (.signatureErr ["x"])
    ∧ ∃ s, Signature.create ⟨[], [], true⟩
        [("extra", ⟨.classTS .intCls, "", false⟩)] = .ok s ∧
        ∀ kv ∈ [("extra", (⟨.classTS .intCls, "", false⟩ : ParameterSpec))],
          kv.1 ∈ s.names := by
  constructor
  · exact (C8_signature_create ⟨["x"], [], false⟩ []
      (by simp) (by simp) (by simp)).1 (by simp)
  · exact (C8_signature_create ⟨[], [], true⟩
      [("extra", ⟨.classTS .intCls, "", false⟩)]
      (by simp) (by simp) (by simp)).2.2.2 (by simp) rfl

/-- C5: `merge` with `override=False, ignore_collision=False` requires the
incoming registry's target class to be a subclass of the receiver's (else
`TypeError`), and evaluates all prospective keys `root+sep+key` against the
receiver's user partition before registering anything: if any collide it
raises a single `KeyConflictError` enumerating every colliding key (the
validation runs before `_merge`, so the receiver is unchanged). -/
theorem C5_merge_validates_whole_batch (A B : Mfr) (root sep : String) :
    (issubclass B.cls A.cls = false →
      A.merge B (some root) false false sep =
        .error (.typeErr (qualname B.cls)))
    ∧ (issubclass B.cls A.cls = true →
      ((B.keys.map (fun n => merged_name (some root) n sep)).filter
          (fun n => (A.user_fcts.lookup n).isSome)) ≠ [] →
      ∃ out, A.merge B (some root) false false sep =
          .error (.keyConflict out) ∧
        ∀ k, k ∈ out ↔
          k ∈ (B.keys.map (fun n => merged_name (some root) n sep)).filter
            (fun n => (A.user_fcts.lookup n).isSome)) := by
  constructor
  · intro hsub
    simp [Mfr.merge, Mfr.validate_merge, hsub]
  · intro hsub hne
    have hie : ((B.keys.map (fun n => merged_name (some root) n sep)).filter
        (fun n => (A.user_fcts.lookup n).isSome)).isEmpty = false := by
      cases hcase : (B.keys.map (fun n => merged_name (some root) n sep)).filter
          (fun n => (A.user_fcts.lookup n).isSome) with
      | nil => exact absurd hcase hne
      | cons a l => simp
    refine ⟨sortStr ((B.keys.map
        (fun n => merged_name (some root) n sep)).filter
          (fun n => (A.user_fcts.lookup n).isSome)).dedup, ?_, ?_⟩
    · simp only [Mfr.merge, Mfr.validate_merge, hsub]
      simp [hie]
    · intro k
      constructor
      · intro hk
        have hperm := List.perm_insertionSort
          (α := String) (· ≤ ·)
          ((B.keys.map (fun n => merged_name (some root) n sep)).filter
            (fun n => (A.user_fcts.lookup n).isSome)).dedup
        exact List.mem_dedup.mp (hperm.mem_iff.mp hk)
      · intro hk
        have hperm := List.perm_insertionSort
          (α := String) (· ≤ ·)
          ((B.keys.map (fun n => merged_name (some root) n sep)).filter
            (fun n => (A.user_fcts.lookup n).isSome)).dedup
        exact hperm.mem_iff.mpr (List.mem_dedup.mpr hk)

/-- A manufacturer of class `A` with user key `"r/k"` registered. -/
def mfrWithRK : Mfr :=
  { Mfr.create (.user "A") with user_fcts := [("r/k", okReturningFactory)] }

/-- A manufacturer of class `A` with user keys `"k"` and `"k2"`. -/
def mfrWithKK2 : Mfr :=
  { Mfr.create (.user "A") with
    user_fcts := [("k", okReturningFactory), ("k2", okReturningFactory)] }

/-- Witness for C5: a manufacturer of a different user class is rejected with
`TypeError`, and a colliding batch reports the colliding key. -/
theorem C5_witness :
    ((Mfr.create (.user "A")).merge (Mfr.create (.user "B")) (some "r")
        false false "/" = .error (.typeErr "B"))
    ∧ ∃ out, mfrWithRK.merge mfrWithKK2 (some "r") false false "/" =
        .error (.keyConflict out) ∧
      ∀ k, k ∈ out ↔ k ∈ (((mfrWithKK2.keys).map
          (fun n => merged_name (some "r") n "/")).filter
            (fun n => (mfrWithRK.user_fcts.lookup n).isSome)) :=
  ⟨(C5_merge_validates_whole_batch (Mfr.create (.user "A"))
      (Mfr.create (.user "B")) "r" "/").1 (by decide),
   (C5_merge_validates_whole_batch mfrWithRK mfrWithKK2 "r" "/").2
      (by decide) (by simp [mfrWithRK, mfrWithKK2, Mfr.keys, merged_name])⟩

/-- `root+sep+name` is injective in `name` for a fixed root and separator. -/
theorem merged_name_inj (r sep k1 k2 : String)
    (h : merged_name (some r) k1 sep = merged_name (some r) k2 sep) :
    k1 = k2 := by
  simp only [merged_name] at h
  have hd := congrArg String.data h
  simp only [String.data_append] at hd
  have hdc := List.append_cancel_left hd
  cases k1
  cases k2
  exact congrArg String.mk (by simpa using hdc)

/-- Invariant of the `_merge` loop under `override=False,
`ignore_collision=True`: builtins, class, default and all pre-existing user
keys of the accumulator are untouched; every processed (non-reserved,
registered) key of `mfr` ends up present under its merged name, carrying
`mfr`'s user factory whenever the accumulator did not already hold that
name. -/
theorem merge_loop_spec (B : Mfr) (root : Option String) (sep : String) :
    ∀ (keys : List String) (acc : Mfr), keys.Nodup →
      (∀ k ∈ keys, is_reserved k = false ∧ (B.user_fcts.lookup k).isSome) →
      (∀ k1 k2, merged_name root k1 sep = merged_name root k2 sep →
        k1 = k2) →
      ∃ out, Mfr.merge_loop B root false true sep acc keys = .ok out ∧
        out.cls = acc.cls ∧ out.builtin_fcts = acc.builtin_fcts ∧
        out.default = acc.default ∧
        (∀ k', (acc.user_fcts.lookup k').isSome →
          out.user_fcts.lookup k' = acc.user_fcts.lookup k') ∧
        (∀ k ∈ keys,
          (out.user_fcts.lookup (merged_name root k sep)).isSome ∧
          (acc.user_fcts.lookup (merged_name root k sep) = Option.none →
            out.user_fcts.lookup (merged_name root k sep) =
              B.user_fcts.lookup k)) := by
  intro keys
  induction keys with
  | nil =>
    intro acc _ _ _
    exact ⟨acc, rfl, rfl, rfl, rfl, fun _ _ => rfl, fun k hk => absurd hk
      (List.not_mem_nil k)⟩
  | cons k rest ih =>
    intro acc hnd hks hinj
    simp only [List.nodup_cons] at hnd
    obtain ⟨hkres, hksome⟩ := hks k (List.mem_cons_self k rest)
    obtain ⟨f, hf⟩ := Option.isSome_iff_exists.mp hksome
    have hget : B.get k = some f := by
      simp [Mfr.get, hkres, hf]
    cases hacc : acc.user_fcts.lookup (merged_name root k sep) with
    | none =>
      have hreg : acc.register_merged (merged_name root k sep) f false =
          .ok { acc with user_fcts := pySet acc.user_fcts (merged_name root k sep) f } := by
        simp [Mfr.register_merged, hacc]
      obtain ⟨out, hout, hcls, hb, hdf, hpres, hkeys⟩ :=
        ih { acc with user_fcts := pySet acc.user_fcts (merged_name root k sep) f }
          hnd.2 (fun k2 hk2 => hks k2 (List.mem_cons_of_mem k hk2)) hinj
      refine ⟨out, ?_, hcls, hb, hdf, ?_, ?_⟩
      · simp only [Mfr.merge_loop, hget, hreg]
        exact hout
      · intro k' hk'
        have hne : k' ≠ merged_name root k sep := by
          intro heq
          rw [heq, hacc] at hk'
          exact absurd hk' (by simp)
        have hstep : (pySet acc.user_fcts (merged_name root k sep)
            f).lookup k' = acc.user_fcts.lookup k' :=
          lookup_pySet_other _ _ _ _ hne
        have hsm : ((pySet acc.user_fcts (merged_name root k sep)
            f).lookup k').isSome := by
          simpa [hstep] using hk'
        rw [hpres k' hsm]
        exact hstep
      · intro k2 hk2
        rcases List.mem_cons.mp hk2 with rfl | htail
        · have hself : (pySet acc.user_fcts (merged_name root k2 sep)
              f).lookup (merged_name root k2 sep) = some f :=
            lookup_pySet_self _ _ _
          have hsome : ((pySet acc.user_fcts (merged_name root k2 sep)
              f).lookup (merged_name root k2 sep)).isSome := by
            simp [hself]
          constructor
          · rw [hpres _ hsome]
            simp [hself]
          · intro _
            rw [hpres _ hsome]
            simp [hself, hf]
        · have hne2 : merged_name root k2 sep ≠ merged_name root k sep := by
            intro heq
            exact hnd.1 ((hinj k2 k heq) ▸ htail)
          have hstep : (pySet acc.user_fcts (merged_name root k sep)
              f).lookup (merged_name root k2 sep) =
              acc.user_fcts.lookup (merged_name root k2 sep) :=
            lookup_pySet_other _ _ _ _ hne2
          obtain ⟨hsome2, hnone2⟩ := hkeys k2 htail
          exact ⟨hsome2, fun hn => hnone2 (by simpa [hstep] using hn)⟩
    | some g =>
      have hreg : acc.register_merged (merged_name root k sep) f false =
          .error (.keyConflict [merged_name root k sep]) := by
        simp [Mfr.register_merged, hacc]
      obtain ⟨out, hout, hcls, hb, hdf, hpres, hkeys⟩ :=
        ih acc hnd.2 (fun k2 hk2 => hks k2 (List.mem_cons_of_mem k hk2)) hinj
      refine ⟨out, ?_, hcls, hb, hdf, hpres, ?_⟩
      · simp only [Mfr.merge_loop, hget, hreg]
        exact hout
      · intro k2 hk2
        rcases List.mem_cons.mp hk2 with rfl | htail
        · constructor
          · rw [hpres _ (by simp [hacc])]
            simp [hacc]
          · intro hn
            rw [hn] at hacc
            exact absurd hacc (by simp)
        · exact hkeys k2 htail

/-- C6 (amended): after `A.merge(B, root)` with the default flags
(`override=False`, `ignore_collision=True`) and `B`'s user keys outside the
reserved namespace, every user key `k` of `B` is present in `A` under
`root/k` — holding `B`'s user factory whenever `A` had no factory at `root/k`
— while `A`'s builtin partition and every pre-existing user key keep their
original factories.  (For a user key *inside* the reserved `afb/` namespace,
`_merge`'s `get` consults `B`'s builtin partition instead, so a builtin
factory would be copied; see the counterexample.) -/
theorem C6_merge_namespaced_copy (A B : Mfr) (root : String)
    (hsub : issubclass B.cls A.cls = true)
    (hnd : B.keys.Nodup)
    (hres : ∀ k ∈ B.keys, is_reserved k = false) :
    ∃ A', A.merge B (some root) = .ok A' ∧
      A'.cls = A.cls ∧ A'.builtin_fcts = A.builtin_fcts ∧
      (∀ k f, B.user_fcts.lookup k = some f →
        (A'.user_fcts.lookup (merged_name (some root) k "/")).isSome ∧
        (A.user_fcts.lookup (merged_name (some root) k "/") = Option.none →
          A'.user_fcts.lookup (merged_name (some root) k "/") = some f)) ∧
      (∀ k, (A.user_fcts.lookup k).isSome →
        A'.user_fcts.lookup k = A.user_fcts.lookup k) := by
  have hks : ∀ k ∈ B.keys, is_reserved k = false ∧
      (B.user_fcts.lookup k).isSome := by
    intro k hk
    exact ⟨hres k hk, lookup_isSome_of_mem_keys B.user_fcts k hk⟩
  obtain ⟨out, hout, hcls, hb, _, hpres, hkeys⟩ :=
    merge_loop_spec B (some root) "/" B.keys A hnd hks
      (fun k1 k2 h => merged_name_inj root "/" k1 k2 h)
  refine ⟨out, ?_, hcls, hb, ?_, hpres⟩
  · simpa [Mfr.merge, Mfr.validate_merge, hsub, Mfr.merge_impl] using hout
  · intro k f hf
    have hkmem : k ∈ B.keys := by
      have hm : (k, f) ∈ B.user_fcts := mem_of_lookup_some B.user_fcts k f hf
      exact List.mem_map_of_mem Prod.fst hm
    obtain ⟨h1, h2⟩ := hkeys k hkmem
    exact ⟨h1, fun hn => by rw [h2 hn, hf]⟩

/-- A manufacturer of class `A` with a *user* factory registered under the
reserved-namespace key `afb/from_config` (the public `register` allows this;
its docstring only warns that such keys are not retrievable). -/
def mfrReservedUser : Mfr :=
  { Mfr.create (.user "A") with
    user_fcts := [("afb/from_config", okReturningFactory)] }

/-- C6 counterexample: merging a manufacturer whose *user* partition holds the
reserved key `afb/from_config` copies the factory that `get` resolves for that
key — the **builtin** `from_config` factory, not the user one — into the
receiver under `r/afb/from_config`.  So "only B's user partition is copied,
never its builtin partition" fails, and the user factory at that key of `B` is
not the one reachable at `r/afb/from_config`. -/
theorem C6_counterexample :
    ∃ A', (Mfr.create (.user "A")).merge mfrReservedUser (some "r") = .ok A' ∧
      A'.user_fcts.lookup "r/afb/from_config" =
        some (make_from_config (.user "A")) ∧
      mfrReservedUser.user_fcts.lookup "afb/from_config" =
        some okReturningFactory ∧
      make_from_config (.user "A") ≠ okReturningFactory := by
  refine ⟨{ Mfr.create (.user "A") with
    user_fcts := [("r/afb/from_config", make_from_config (.user "A"))] },
    by rfl, by rfl, by rfl, ?_⟩
  intro h
  have hcontra := congrArg (fun fc => fc.sig.required) h
  simp [make_from_config, okReturningFactory] at hcontra

/-- Witness for C6 at a concrete merge of two manufacturers. -/
theorem C6_witness :
    ∃ A', (Mfr.create (.user "A")).merge mfrWithKK2 (some "r") = .ok A' ∧
      A'.cls = (Mfr.create (.user "A")).cls ∧
      A'.builtin_fcts = (Mfr.create (.user "A")).builtin_fcts ∧
      (∀ k f, mfrWithKK2.user_fcts.lookup k = some f →
        (A'.user_fcts.lookup (merged_name (some "r") k "/")).isSome ∧
        ((Mfr.create (.user "A")).user_fcts.lookup
            (merged_name (some "r") k "/") = Option.none →
          A'.user_fcts.lookup (merged_name (some "r") k "/") = some f)) ∧
      (∀ k, ((Mfr.create (.user "A")).user_fcts.lookup k).isSome →
        A'.user_fcts.lookup k =
          (Mfr.create (.user "A")).user_fcts.lookup k) :=
  C6_merge_namespaced_copy (Mfr.create (.user "A")) mfrWithKK2 "r"
    (by decide) (by decide) (by decide)

/-! ## `afb.utils.algorithms` : the iterative postorder evaluator -/

/-- `algorithms.ProcResult` in the two shapes the proc functions return: an
`ItemResult` (a finished value) or a `NodeResult` (a fuse function plus the
pending children).  Children are listed eagerly; the Python child iterators
are finite, and a fuse function may raise. -/
inductive PRes (α β : Type) where
  | item (b : β)
  | node (fuse : List β → Except Err β) (children : List α)

/-- `algorithms.PostorderDFSNode`: fuse function, pending items, and the
collected results (`_fuse_items`, in append order). -/
structure Frame (α β : Type) where
  fuse : List β → Except Err β
  items : List α
  acc : List β

/-- The while-loop of `PostorderDFS.__call__` with explicit fuel (the Python
loop's termination depends on the proc function; each claim supplies enough
fuel for its input).  `none` means the fuel ran out.  One fuel unit is one
loop iteration: either the top frame's next item is processed (item appended
or node pushed), or the exhausted top frame is popped, fused, and its result
appended to the parent — or returned when the stack has emptied. -/
def runDFS {α β : Type} (proc : α → Except Err (PRes α β)) :
    Nat → List (Frame α β) → Option (Except Err β)
  | 0, _ => Option.none
  | _ + 1, [] => Option.none
  | fuel + 1, frame :: rest =>
    match frame.items with
    | [] =>
      match frame.fuse frame.acc with
      | .error e => some (.error e)
      | .ok r =>
        match rest with
        | [] => some (.ok r)
        | parent :: rs =>
          runDFS proc fuel ({ parent with acc := parent.acc ++ [r] } :: rs)
    | it :: its =>
      match proc it with
      | .error e => some (.error e)
      | .ok (.item b) =>
        runDFS proc fuel
          ({ frame with items := its, acc := frame.acc ++ [b] } :: rest)
      | .ok (.node f cs) =>
        runDFS proc fuel (⟨f, cs, []⟩ :: { frame with items := its } :: rest)

/-- `PostorderDFS.__call__`: seed the stack with a single frame whose fuse
returns its first collected result (`lambda *x: x[0]`). -/
def PostorderDFS {α β : Type} (proc : α → Except Err (PRes α β)) (fuel : Nat)
    (seed : α) : Option (Except Err β) :=
  runDFS proc fuel
    [⟨fun l => match l with | [] => .error .indexErr | b :: _ => .ok b,
      [seed], []⟩]

/-- A finite fuse tree: the recursive reference semantics of the evaluator.
A terminal item evaluates to itself; a node evaluates to its fuse function
applied to its children's values in order. -/
inductive FTree (β : Type) where
  | item (b : β)
  | node (fuse : List β → β) (children : List (FTree β))

/-- Recursive postorder fold over a fuse tree. -/
def FTree.eval {β : Type} : FTree β → β
  | .item b => b
  | .node f cs => f (cs.attach.map fun c => FTree.eval c.1)
decreasing_by
  simp_wf
  have h := List.sizeOf_lt_of_mem c.2
  omega

/-- Number of machine steps needed to consume a tree: one per processed item
plus, per node, one push and one pop. -/
def FTree.cost {β : Type} : FTree β → Nat
  | .item _ => 1
  | .node _ cs => 2 + (cs.attach.map fun c => FTree.cost c.1).sum
decreasing_by
  simp_wf
  have h := List.sizeOf_lt_of_mem c.2
  omega

theorem FTree.eval_node {β : Type} (f : List β → β)
    (cs : List (FTree β)) :
    (FTree.node f cs).eval = f (cs.map FTree.eval) := by
  simp [FTree.eval, List.attach_map_coe]

theorem FTree.cost_node {β : Type} (f : List β → β)
    (cs : List (FTree β)) :
    (FTree.node f cs).cost = 2 + (cs.map FTree.cost).sum := by
  simp [FTree.cost, List.attach_map_coe]

/-- The step function classifying a fuse tree for the machine: a terminal item
evaluates to itself, a node opens a frame over its children. -/
def treeProc {β : Type} : FTree β → Except Err (PRes (FTree β) β)
  | .item b => .ok (.item b)
  | .node f cs => .ok (.node (fun l => .ok (f l)) cs)

mutual

theorem runDFS_tree_step {β : Type} :
    ∀ (t : FTree β) (g : List β → Except Err β) (its : List (FTree β))
      (acc : List β) (rest : List (Frame (FTree β) β)) (fuel : Nat),
      runDFS treeProc (t.cost + fuel) (⟨g, t :: its, acc⟩ :: rest) =
        runDFS treeProc fuel (⟨g, its, acc ++ [t.eval]⟩ :: rest)
  | .item b, g, its, acc, rest, fuel => by
    have h1 : (FTree.item b : FTree β).cost + fuel = fuel + 1 := by
      simp [FTree.cost]
      omega
    rw [h1]
    simp [runDFS, treeProc, FTree.eval]
  | .node f cs, g, its, acc, rest, fuel => by
    have h1 : (FTree.node f cs).cost + fuel =
        ((cs.map FTree.cost).sum + (1 + fuel)) + 1 := by
      rw [FTree.cost_node]
      omega
    rw [h1]
    simp only [runDFS, treeProc]
    rw [runDFS_tree_list cs (fun l => .ok (f l)) [] (1 + fuel)
      ({ fuse := g, items := its, acc := acc } :: rest)]
    have h2 : 1 + fuel = fuel + 1 := by omega
    rw [h2]
    simp only [runDFS, List.nil_append]
    rw [FTree.eval_node]

theorem runDFS_tree_list {β : Type} :
    ∀ (cs : List (FTree β)) (g : List β → Except Err β) (acc : List β)
      (fuel : Nat) (rest : List (Frame (FTree β) β)),
      runDFS treeProc ((cs.map FTree.cost).sum + fuel)
          (⟨g, cs, acc⟩ :: rest) =
        runDFS treeProc fuel (⟨g, [], acc ++ cs.map FTree.eval⟩ :: rest)
  | [], g, acc, fuel, rest => by
    simp
  | c :: cs', g, acc, fuel, rest => by
    have h1 : ((c :: cs').map FTree.cost).sum + fuel =
        c.cost + ((cs'.map FTree.cost).sum + fuel) := by
      simp [List.map_cons, List.sum_cons]
      omega
    rw [h1]
    rw [runDFS_tree_step c g cs' acc rest ((cs'.map FTree.cost).sum + fuel)]
    rw [runDFS_tree_list cs' g (acc ++ [c.eval]) fuel rest]
    simp

end

/-- A manifest nested to the given depth: `n` nested single-child nodes whose
fuse takes the head of its single collected result. -/
def deepTree : Nat → FTree Nat
  | 0 => .item 0
  | n + 1 => .node (fun l => l.headD 0) [deepTree n]

/-- C2: for every finite tree, the iterative explicit-stack evaluator
(`PostorderDFS`, run with fuel `cost t + 1`, one unit per loop iteration)
returns exactly the recursive postorder fold `FTree.eval`: an item evaluates
to itself, a node to its fuse applied to its children's results in order;
when a frame's iterator is exhausted it is popped, its fuse applied to the
collected results, and that single result appended to the parent frame or
returned as the final value once the stack is empty.  Nesting depth is
bounded only by the explicit stack: a tree nested to depth 10,000 evaluates
successfully. -/
theorem C2_postorder_iterative_eq_recursive_fold :
    (∀ (β : Type) (t : FTree β),
      PostorderDFS treeProc (t.cost + 1) t = some (.ok t.eval))
    ∧ (PostorderDFS treeProc ((deepTree 10000).cost + 1)
        (deepTree 10000)).isSome = true := by
  have hall : ∀ (β : Type) (t : FTree β),
      PostorderDFS treeProc (t.cost + 1) t = some (.ok t.eval) := by
    intro β t
    unfold PostorderDFS
    rw [runDFS_tree_step t _ [] [] [] 1]
    simp [runDFS]
  exact ⟨hall, by rw [hall Nat (deepTree 10000)]; rfl⟩

/-! ## `afb.core.broker` (the parts `make` reads) and the execution tree -/

/-- The fuse callables captured in `FnCall` nodes of the exec tree: the
`pack` classmethods of the four type-spec kinds, and a factory's
`call_as_fuse_fn`. -/
inductive FuseTag where
  | packClass
  | packList
  | packDict
  | packTuple
  | factoryFuse (f : Factory)

/-- `fn_util.FnCall` trees as produced by `_create_exec_tree`: leaves are
already-realized values (or parameter-name strings), inner nodes are `FnCall`
objects holding a fuse callable and its argument subtrees.  (`FnCall` itself
is the current name of `fn_util.FuseCallInfo`: an `fn` plus captured
`args`.) -/
inductive Exec where
  | val (v : PyVal)
  | call (f : FuseTag) (args : List Exec)

/-- `broker.Broker` state: the class-to-manufacturer map. -/
structure Broker where
  mfrs : List (PyClass × Mfr)

/-- `Broker.get_or_create`: return the registered manufacturer, or a freshly
created one for the class.  (The real method also registers the new instance
and pre-seeds primitive classes with extra factories; those extras are
registered under reserved-prefixed keys in the *user* partition, which `get`
never resolves, so they are invisible to every code path verified here.) -/
def Broker.get_or_create (bk : Broker) (c : PyClass) : Mfr :=
  match bk.mfrs.lookup c with
  | some m => m
  | Option.none => Mfr.create c

/-- `Manufacturer.get` reached with the key taken from an `ObjectSpec`
(`obj_or_spec.key`): `misc.is_reserved` calls `key.split`, so a non-string
key raises `AttributeError`. -/
def Mfr.getV (m : Mfr) (key : PyVal) : Except Err (Option Factory) :=
  match key with
  | .str s => .ok (m.get s)
  | _ => .error (.typeErr "AttributeError: split")

/-- The items flowing through `Manufacturer._create_exec_tree_proc`: pairs
`(None, k)` from `parse_inputs`, `(TypeSpec, manifest)` pairs, and
`(type, direct-value | ObjectSpec)` pairs from `_ClassTypeSpec
.parse_manifest`. -/
inductive XItem where
  | noneTag (v : PyVal)
  | ts (t : TypeSpec) (m : PyVal)
  | clsObj (c : PyClass) (m : PyVal)
  | clsSpec (c : PyClass) (os : ObjectSpec)

/-- The pair items of `_DictTypeSpec.parse_manifest`'s list form: a
length-2 list/tuple, or a dict with key set exactly `{"key", "value"}`. -/
def dictPairItems (ks vs : TypeSpec) : List PyVal → Except Err (List XItem)
  | [] => .ok []
  | p :: rest =>
    match p with
    | .list [k, v] | .tuple [k, v] =>
      match dictPairItems ks vs rest with
      | .error e => .error e
      | .ok tail => .ok (.ts ks k :: .ts vs v :: tail)
    | .dict [(.str a, x), (.str b, y)] =>
      if a == "key" && b == "value" then
        match dictPairItems ks vs rest with
        | .error e => .error e
        | .ok tail => .ok (.ts ks x :: .ts vs y :: tail)
      else if a == "value" && b == "key" then
        match dictPairItems ks vs rest with
        | .error e => .error e
        | .ok tail => .ok (.ts ks y :: .ts vs x :: tail)
      else .error .invalidFormat
    | _ => .error .invalidFormat

/-- `TypeSpec.parse_manifest`, per subclass (`_ClassTypeSpec`,
`_ListTypeSpec`, `_DictTypeSpec`, `_TupleTypeSpec`), yielding the child items
of the decomposition. -/
def TypeSpec.parse_manifest : TypeSpec → PyVal → Except Err (List XItem)
  | .classTS c, m =>
    if is_direct_object m c then .ok [.clsObj c m]
    else
      match ObjectSpec.parse m with
      | .error e => .error e
      | .ok os => .ok [.clsSpec c os]
  | .listTS ts, m =>
    match m with
    | .list xs => .ok (xs.map (fun x => .ts ts x))
    | .tuple xs => .ok (xs.map (fun x => .ts ts x))
    | _ => .error .invalidFormat
  | .dictTS ks vs, m =>
    match m with
    | .dict kvs => .ok (kvs.flatMap fun kv => [.ts ks kv.1, .ts vs kv.2])
    | .list es => dictPairItems ks vs es
    | .tuple es => dictPairItems ks vs es
    | _ => .error .invalidFormat
  | .tupleTS tss, m =>
    match m with
    | .list xs =>
      if xs.length = tss.length then
        .ok ((tss.zip xs).map fun p => .ts p.1 p.2)
      else .error .invalidFormat
    | .tuple xs =>
      if xs.length = tss.length then
        .ok ((tss.zip xs).map fun p => .ts p.1 p.2)
      else .error .invalidFormat
    | _ => .error .invalidFormat

/-- The `pack` classmethod captured for a type spec's exec-tree node. -/
def TypeSpec.packTag : TypeSpec → FuseTag
  | .classTS _ => .packClass
  | .listTS _ => .packList
  | .dictTS _ _ => .packDict
  | .tupleTS _ => .packTuple

/-- Consecutive pairing of a varargs stream (`_DictTypeSpec.pack`'s
comprehension index arithmetic). -/
def pairup : List PyVal → List (PyVal × PyVal)
  | k :: v :: rest => (k, v) :: pairup rest
  | _ => []

/-- `FnCall.__call__` at fuse time: the four `pack` classmethods and
`Factory.call_as_fuse_fn`. -/
def applyFuse : FuseTag → List PyVal → Except Err PyVal
  | .packClass, args =>
    match args with
    | [] => .error .indexErr
    | a :: _ => .ok a
  | .packList, args => .ok (.tuple args)
  | .packTuple, args => .ok (.tuple args)
  | .packDict, args =>
    if args.length % 2 = 1 then .error .assertionErr
    else .ok (.dict (pyDictOf (pairup args)))
  | .factoryFuse f, args =>
    match varargs_to_kwargs args with
    | .error e => .error e
    | .ok kw => Factory.call f kw

/-- The `inputs` payload of an `ObjectSpec` arriving at
`Factory.parse_inputs`: `assert inputs is None or isinstance(inputs, dict)`,
and `**`-expansion demands string keys. -/
def asKwargsDict : PyVal → Except Err (Option (List (String × PyVal)))
  | .none => .ok Option.none
  | .dict kvs =>
    match kvs.mapM (fun kv =>
        (match kv.1 with
        | .str s => Except.ok (s, kv.2)
        | _ => Except.error (.typeErr "keywords must be strings") :
          Except Err (String × PyVal))) with
    | .error e => .error e
    | .ok l => .ok (some l)
  | _ => .error .assertionErr

/-- The declared type of a factory parameter (`self._sig[k].type`); total
version, only evaluated at names `merge_inputs` has validated. -/
def Factory.paramType (f : Factory) (k : String) : TypeSpec :=
  match f.sig.ordered_param_specs.lookup k with
  | some ps => ps.type
  | Option.none => .classTS .noneType

/-- `Factory.parse_inputs`: merge defaults with the call-time inputs, then
yield `(None, k)` and `(sig[k].type, v)` per merged item. -/
def Factory.parse_inputs (f : Factory)
    (inputs : Option (List (String × PyVal))) : Except Err (List XItem) :=
  match f.merge_inputs (inputs.getD []) with
  | .error e => .error e
  | .ok merged =>
    match merged.mapM (fun kv =>
        (match f.sig.ordered_param_specs.lookup kv.1 with
        | some ps =>
          Except.ok [XItem.noneTag (.str kv.1), XItem.ts ps.type kv.2]
        | Option.none => Except.error (.keyErr kv.1) :
          Except Err (List XItem))) with
    | .error e => .error e
    | .ok ls => .ok ls.flatten

/-- The children of a factory-call node: convert the object spec's `inputs`
payload and run `parse_inputs`. -/
def factoryChildren (fct : Factory) (inputs : PyVal) :
    Except Err (List XItem) :=
  match asKwargsDict inputs with
  | .error e => .error e
  | .ok kw => fct.parse_inputs kw

/-- `Manufacturer._create_exec_tree_proc`: classify one item into a terminal
exec-tree leaf or a new node. -/
def createProc (bkOpt : Option Broker) (selfCls : PyClass) :
    XItem → Except Err (PRes XItem Exec)
  | .noneTag v => .ok (.item (.val v))
  | .ts t m =>
    match t.parse_manifest m with
    | .error e => .error e
    | .ok cs => .ok (.node (fun rs => .ok (.call t.packTag rs)) cs)
  | .clsObj _ m => .ok (.item (.val m))
  | .clsSpec c os =>
    match bkOpt with
    | Option.none => .error (.graph (qualname selfCls))
    | some bk =>
      let mfr := bk.get_or_create c
      match mfr.getV os.key with
      | .error e => .error e
      | .ok Option.none =>
        if c = .dictCls then .ok (.item (.val os.raw))
        else .error (.keyErr (qualname c))
      | .ok (some fct) =>
        match factoryChildren fct os.inputs with
        | .error e => .error e
        | .ok cs =>
          .ok (.node (fun rs => .ok (.call (.factoryFuse fct) rs)) cs)

/-- `manufacturer._run_exec_tree_proc`: an `FnCall` opens a frame over its
arguments with itself as the fuse; anything else is terminal. -/
def runProc : Exec → Except Err (PRes Exec PyVal)
  | .call f args => .ok (.node (applyFuse f) args)
  | .val v => .ok (.item v)

/-- The root manifest `{key: inputs}` built by `_create_exec_tree`. -/
def rootManifest (key : String) (inputs : Option (List (String × PyVal))) :
    PyVal :=
  .dict [(.str key,
    match inputs with
    | Option.none => PyVal.none
    | some kvs => .dict (kvs.map fun kv => (.str kv.1, kv.2)))]

/-- `Manufacturer._create_exec_tree`: run the classification machine from
`(TypeSpec.parse(cls), {key: inputs})`. -/
def Mfr.create_exec_tree (self : Mfr) (bkOpt : Option Broker) (fuel : Nat)
    (key : String) (inputs : Option (List (String × PyVal))) :
    Option (Except Err Exec) :=
  PostorderDFS (createProc bkOpt self.cls) fuel
    (.ts (.classTS self.cls) (rootManifest key inputs))

/-- `Manufacturer._make`: look up the factory (`KeyError` when absent), build
the exec tree, then run it. -/
def Mfr.make_impl (self : Mfr) (bkOpt : Option Broker) (fuel : Nat)
    (key : String) (inputs : Option (List (String × PyVal))) :
    Option (Except Err PyVal) :=
  match self.get key with
  | Option.none => some (.error (.keyErr key))
  | some _ =>
    match self.create_exec_tree bkOpt fuel key inputs with
    | Option.none => Option.none
    | some (.error e) => some (.error e)
    | some (.ok root) => PostorderDFS runProc fuel root

/-- `Manufacturer.make`: default-key resolution, then `_make`. -/
def Mfr.make (self : Mfr) (bkOpt : Option Broker) (fuel : Nat)
    (key : Option String) (inputs : Option (List (String × PyVal))) :
    Option (Except Err PyVal) :=
  match (match key with | some k => some k | Option.none => self.default) with
  | Option.none => some (.error (.valueErr "Factory key unspecified."))
  | some k => self.make_impl bkOpt fuel k inputs

/-- The root manifest `{key: inputs}` is never a direct object of the target
class: for a non-dict target it fails `isinstance`, and for the dict target
its singleton-string-key shape makes it an object spec. -/
theorem root_not_direct (c : PyClass) (key : String)
    (inputs : Option (List (String × PyVal))) :
    is_direct_object (rootManifest key inputs) c = false := by
  rcases eq_or_ne c .dictCls with rfl | hne
  · simp [is_direct_object, rootManifest, is_object_spec, isinstance,
      issubclass, PyVal.typeOf]
  · have h1 : isinstance (rootManifest key inputs) c = false := by
      simp [isinstance, rootManifest, PyVal.typeOf, issubclass, Ne.symm hne]
    simp only [rootManifest] at h1
    simp [is_direct_object, rootManifest, h1]

/-- The root manifest parses to the object spec `(key, inputs)`. -/
theorem root_parse (key : String) (inputs : Option (List (String × PyVal))) :
    ObjectSpec.parse (rootManifest key inputs) =
      .ok ⟨rootManifest key inputs, .str key,
        match inputs with
        | Option.none => PyVal.none
        | some kvs => .dict (kvs.map fun kv => (.str kv.1, kv.2))⟩ := by
  simp [ObjectSpec.parse, rootManifest, is_object_spec]

/-- C7: a `Manufacturer` never bound to any `Broker` raises `GraphError` from
`make` on a manifest that requires cross-class resolution (a parameter whose
manifest is an object spec under a class type spec).  In fact the root
manifest `{key: inputs}` itself already needs the broker, so the error fires
for any registered key. -/
theorem C7_unbound_make_raises_graph_error (m : Mfr) (key : String)
    (fct : Factory) (inputs : List (String × PyVal)) (fuel : Nat)
    (hget : m.get key = some fct)
    (hfuel : 2 ≤ fuel)
    (_hcross : ∃ kv ∈ inputs, ∃ ps,
      fct.sig.ordered_param_specs.lookup kv.1 = some ps ∧
      ∃ c, ps.type = .classTS c ∧ is_object_spec kv.2 = true ∧
        is_direct_object kv.2 c = false) :
    m.make Option.none fuel (some key) (some inputs) =
      some (.error (.graph (qualname m.cls))) := by
  obtain ⟨n, rfl⟩ : ∃ n, fuel = n + 2 := ⟨fuel - 2, by omega⟩
  have hdirect := root_not_direct m.cls key (some inputs)
  have hparse := root_parse key (some inputs)
  simp only [Mfr.make, Mfr.make_impl, hget, Mfr.create_exec_tree,
    PostorderDFS]
  simp only [runDFS, createProc, TypeSpec.parse_manifest, hdirect,
    Bool.false_eq_true, if_false, hparse]

/-- A signature with one required class-typed parameter `a : A`. -/
def exSigA : Signature := ⟨[("a", ⟨.classTS (.user "A"), "", true⟩)], ["a"]⟩

/-- A factory for class `B` whose parameter `a` expects an `A` instance. -/
def exFactB : Factory :=
  ⟨.user "B", ⟨⟨["a"], [], false⟩, fun _ => .obj "B" []⟩, exSigA, []⟩

/-- A manufacturer for `B` holding `exFactB` under `"create"`, never bound. -/
def exMfrB : Mfr :=
  { Mfr.create (.user "B") with user_fcts := [("create", exFactB)] }

/-- Witness for C7 on a concrete unbound manufacturer. -/
theorem C7_witness :
    exMfrB.make Option.none 2 (some "create")
        (some [("a", .dict [(.str "mk", PyVal.none)])]) =
      some (.error (.graph "B")) :=
  C7_unbound_make_raises_graph_error exMfrB "create" exFactB
    [("a", .dict [(.str "mk", PyVal.none)])] 2 (by rfl) (by omega)
    ⟨("a", .dict [(.str "mk", PyVal.none)]), by simp,
      ⟨⟨.classTS (.user "A"), "", true⟩, by rfl,
        ⟨.user "A", rfl, by rfl, by rfl⟩⟩⟩

/-- A successful `ObjectSpec.parse` keeps the raw manifest. -/
theorem ObjectSpec.parse_raw (v : PyVal) (os : ObjectSpec)
    (h : ObjectSpec.parse v = .ok os) : os.raw = v := by
  unfold ObjectSpec.parse at h
  by_cases hs : is_object_spec v
  · rw [if_pos hs] at h
    split at h
    · injection h with h'
      rw [← h']
    · split at h <;> injection h with h' <;> rw [← h']
    · exact absurd h (by simp)
  · rw [if_neg hs] at h
    exact absurd h (by simp)

/-- C4: for a parameter whose target class is `dict` and whose manifest `m`
is itself a dict, construction treats `m` as an object spec only when `m`
matches one of the two object-spec shapes *and* the dict manufacturer
resolved through the broker has a factory under the extracted key (the
classification becomes a factory-call node); in every other case —
shape mismatch, or no factory under the key — `m` is used literally as the
direct dict value. -/
theorem C4_dict_target_disambiguation (bk : Broker) (selfCls : PyClass)
    (kvs : List (PyVal × PyVal)) :
    (is_object_spec (.dict kvs) = false →
      TypeSpec.parse_manifest (.classTS .dictCls) (.dict kvs) =
        .ok [.clsObj .dictCls (.dict kvs)] ∧
      createProc (some bk) selfCls (.clsObj .dictCls (.dict kvs)) =
        .ok (.item (.val (.dict kvs))))
    ∧ (∀ os, is_object_spec (.dict kvs) = true →
        ObjectSpec.parse (.dict kvs) = .ok os →
        TypeSpec.parse_manifest (.classTS .dictCls) (.dict kvs) =
          .ok [.clsSpec .dictCls os] ∧
        os.raw = .dict kvs ∧
        ((bk.get_or_create .dictCls).getV os.key = .ok Option.none →
          createProc (some bk) selfCls (.clsSpec .dictCls os) =
            .ok (.item (.val (.dict kvs)))) ∧
        (∀ fct cs,
          (bk.get_or_create .dictCls).getV os.key = .ok (some fct) →
          factoryChildren fct os.inputs = .ok cs →
          createProc (some bk) selfCls (.clsSpec .dictCls os) =
            .ok (.node (fun rs => .ok (.call (.factoryFuse fct) rs)) cs))) := by
  constructor
  · intro hshape
    have hdirect : is_direct_object (.dict kvs) .dictCls = true := by
      simp [is_direct_object, isinstance, PyVal.typeOf, issubclass, hshape]
    constructor
    · simp [TypeSpec.parse_manifest, hdirect]
    · simp [createProc]
  · intro os hshape hparse
    have hdirect : is_direct_object (.dict kvs) .dictCls = false := by
      simp [is_direct_object, isinstance, PyVal.typeOf, issubclass, hshape]
    have hraw : os.raw = .dict kvs := ObjectSpec.parse_raw _ _ hparse
    refine ⟨?_, hraw, ?_, ?_⟩
    · simp [TypeSpec.parse_manifest, hdirect, hparse]
    · intro hv
      simp [createProc, hv, hraw]
    · intro fct cs hv hc
      simp [createProc, hv, hc]

/-- A trivial factory producing dicts, registered on the dict manufacturer. -/
def dictFact : Factory :=
  ⟨.dictCls, ⟨⟨[], [], false⟩, fun _ => .dict []⟩, ⟨[], []⟩, []⟩

/-- A broker holding a dict manufacturer with user factory `"mk"`. -/
def bkWithDict : Broker :=
  ⟨[(.dictCls,
    { Mfr.create .dictCls with user_fcts := [("mk", dictFact)] })]⟩

/-- Witness for C4: a non-object-spec-shaped dict is literal; an object-spec
shape whose key has no factory is literal; an object-spec shape whose key is
registered becomes a factory-call node. -/
theorem C4_witness :
    (TypeSpec.parse_manifest (.classTS .dictCls)
        (.dict [(.int 1, .int 2)]) =
      .ok [.clsObj .dictCls (.dict [(.int 1, .int 2)])] ∧
      createProc (some bkWithDict) (.user "S")
          (.clsObj .dictCls (.dict [(.int 1, .int 2)])) =
        .ok (.item (.val (.dict [(.int 1, .int 2)]))))
    ∧ createProc (some bkWithDict) (.user "S")
        (.clsSpec .dictCls ⟨.dict [(.str "other", PyVal.none)],
          .str "other", PyVal.none⟩) =
      .ok (.item (.val (.dict [(.str "other", PyVal.none)])))
    ∧ createProc (some bkWithDict) (.user "S")
        (.clsSpec .dictCls ⟨.dict [(.str "mk", PyVal.none)],
          .str "mk", PyVal.none⟩) =
      .ok (.node (fun rs => .ok (.call (.factoryFuse dictFact) rs)) []) := by
  refine ⟨(C4_dict_target_disambiguation bkWithDict (.user "S")
    [(.int 1, .int 2)]).1 (by rfl), ?_, ?_⟩
  · exact ((C4_dict_target_disambiguation bkWithDict (.user "S")
      [(.str "other", PyVal.none)]).2
      ⟨.dict [(.str "other", PyVal.none)], .str "other", PyVal.none⟩
      (by rfl) (by rfl)).2.2.1 (by rfl)
  · exact ((C4_dict_target_disambiguation bkWithDict (.user "S")
      [(.str "mk", PyVal.none)]).2
      ⟨.dict [(.str "mk", PyVal.none)], .str "mk", PyVal.none⟩
      (by rfl) (by rfl)).2.2.2 dictFact [] (by rfl) (by rfl)

/-! ## Realized manifests and their path through the exec tree (claim C1) -/

mutual

/-- A manifest value that is already realized for its declared type spec:
a direct object for a class spec (`None`, or an instance that is not an
object-spec-shaped dict when the class is `dict`), and element-wise realized
containers for the container specs (list specs accept list or tuple values,
as `parse_manifest` does). -/
def realized : TypeSpec → PyVal → Bool
  | .classTS c, v => is_direct_object v c
  | .listTS ts, v =>
    match v with
    | .list xs => realizedElems ts xs
    | .tuple xs => realizedElems ts xs
    | _ => false
  | .dictTS ks vs, v =>
    match v with
    | .dict kvs => realizedPairs ks vs kvs
    | _ => false
  | .tupleTS tss, v =>
    match v with
    | .list xs => realizedZip tss xs
    | .tuple xs => realizedZip tss xs
    | _ => false

def realizedElems (ts : TypeSpec) : List PyVal → Bool
  | [] => true
  | x :: xs => realized ts x && realizedElems ts xs

def realizedPairs (ks vs : TypeSpec) : List (PyVal × PyVal) → Bool
  | [] => true
  | (k, v) :: rest => realized ks k && realized vs v && realizedPairs ks vs rest

def realizedZip : List TypeSpec → List PyVal → Bool
  | [], [] => true
  | ts :: tss, x :: xs => realized ts x && realizedZip tss xs
  | _, _ => false

end

mutual

/-- What the engine hands the factory for a realized value: class-spec values
pass through unmodified; list- and tuple-spec values are repacked as tuples
(`pack` returns its varargs); dict-spec values are rebuilt entrywise. -/
def repack : TypeSpec → PyVal → PyVal
  | .classTS _, v => v
  | .listTS ts, v =>
    match v with
    | .list xs => .tuple (repackElems ts xs)
    | .tuple xs => .tuple (repackElems ts xs)
    | _ => v
  | .dictTS ks vs, v =>
    match v with
    | .dict kvs => .dict (pyDictOf (repackPairs ks vs kvs))
    | _ => v
  | .tupleTS tss, v =>
    match v with
    | .list xs => .tuple (repackZip tss xs)
    | .tuple xs => .tuple (repackZip tss xs)
    | _ => v

def repackElems (ts : TypeSpec) : List PyVal → List PyVal
  | [] => []
  | x :: xs => repack ts x :: repackElems ts xs

def repackPairs (ks vs : TypeSpec) : List (PyVal × PyVal) →
    List (PyVal × PyVal)
  | [] => []
  | (k, v) :: rest => (repack ks k, repack vs v) :: repackPairs ks vs rest

def repackZip : List TypeSpec → List PyVal → List PyVal
  | ts :: tss, x :: xs => repack ts x :: repackZip tss xs
  | _, _ => []

end

mutual

/-- The exec subtree `_create_exec_tree` builds for a realized `(spec,
manifest)` pair. -/
def buildT : TypeSpec → PyVal → Exec
  | .classTS _, v => .call .packClass [.val v]
  | .listTS ts, v =>
    match v with
    | .list xs => .call .packList (buildElems ts xs)
    | .tuple xs => .call .packList (buildElems ts xs)
    | _ => .val v
  | .dictTS ks vs, v =>
    match v with
    | .dict kvs => .call .packDict (buildPairs ks vs kvs)
    | _ => .val v
  | .tupleTS tss, v =>
    match v with
    | .list xs => .call .packTuple (buildZip tss xs)
    | .tuple xs => .call .packTuple (buildZip tss xs)
    | _ => .val v

def buildElems (ts : TypeSpec) : List PyVal → List Exec
  | [] => []
  | x :: xs => buildT ts x :: buildElems ts xs

def buildPairs (ks vs : TypeSpec) : List (PyVal × PyVal) → List Exec
  | [] => []
  | (k, v) :: rest => buildT ks k :: buildT vs v :: buildPairs ks vs rest

def buildZip : List TypeSpec → List PyVal → List Exec
  | ts :: tss, x :: xs => buildT ts x :: buildZip tss xs
  | _, _ => []

end

mutual

/-- Machine steps needed to build the exec subtree of a realized pair. -/
def bcost : TypeSpec → PyVal → Nat
  | .classTS _, _ => 3
  | .listTS ts, v =>
    match v with
    | .list xs => 2 + bcostElems ts xs
    | .tuple xs => 2 + bcostElems ts xs
    | _ => 2
  | .dictTS ks vs, v =>
    match v with
    | .dict kvs => 2 + bcostPairs ks vs kvs
    | _ => 2
  | .tupleTS tss, v =>
    match v with
    | .list xs => 2 + bcostZip tss xs
    | .tuple xs => 2 + bcostZip tss xs
    | _ => 2

def bcostElems (ts : TypeSpec) : List PyVal → Nat
  | [] => 0
  | x :: xs => bcost ts x + bcostElems ts xs

def bcostPairs (ks vs : TypeSpec) : List (PyVal × PyVal) → Nat
  | [] => 0
  | (k, v) :: rest => bcost ks k + bcost vs v + bcostPairs ks vs rest

def bcostZip : List TypeSpec → List PyVal → Nat
  | ts :: tss, x :: xs => bcost ts x + bcostZip tss xs
  | _, _ => 0

end

mutual

/-- Recursive evaluation of an exec tree (`_run_exec_tree_proc`'s
semantics): a value is terminal, an `FnCall` applies its fuse to the
evaluated arguments in order. -/
def execEval : Exec → Except Err PyVal
  | .val v => .ok v
  | .call f args =>
    match evalArgs args with
    | .error e => .error e
    | .ok vs => applyFuse f vs

def evalArgs : List Exec → Except Err (List PyVal)
  | [] => .ok []
  | t :: ts =>
    match execEval t with
    | .error e => .error e
    | .ok v =>
      match evalArgs ts with
      | .error e => .error e
      | .ok vs => .ok (v :: vs)

end

mutual

/-- Machine steps needed to evaluate an exec tree. -/
def ecost : Exec → Nat
  | .val _ => 1
  | .call _ args => 2 + ecostArgs args

def ecostArgs : List Exec → Nat
  | [] => 0
  | t :: ts => ecost t + ecostArgs ts

end

mutual

theorem runDFS_exec_step :
    ∀ (t : Exec) (v : PyVal), execEval t = .ok v →
      ∀ (g : List PyVal → Except Err PyVal) (its : List Exec)
        (acc : List PyVal) (rest : List (Frame Exec PyVal)) (fuel : Nat),
        runDFS runProc (ecost t + fuel) (⟨g, t :: its, acc⟩ :: rest) =
          runDFS runProc fuel (⟨g, its, acc ++ [v]⟩ :: rest)
  | .val w, v, hv, g, its, acc, rest, fuel => by
    have h1 : ecost (.val w) + fuel = fuel + 1 := by
      simp [ecost]
      omega
    simp only [execEval, Except.ok.injEq] at hv
    rw [h1]
    simp only [runDFS, runProc]
    rw [hv]
  | .call f args, v, hv, g, its, acc, rest, fuel => by
    simp only [execEval] at hv
    cases ha : evalArgs args with
    | error e => rw [ha] at hv; exact absurd hv (by simp)
    | ok vs =>
      rw [ha] at hv
      have h1 : ecost (.call f args) + fuel =
          (ecostArgs args + (1 + fuel)) + 1 := by
        simp [ecost]
        omega
      rw [h1]
      simp only [runDFS, runProc]
      rw [runDFS_exec_list args vs ha (applyFuse f) [] (1 + fuel)
        ({ fuse := g, items := its, acc := acc } :: rest)]
      have h2 : 1 + fuel = fuel + 1 := by omega
      rw [h2]
      simp only [runDFS, List.nil_append]
      have hv' : applyFuse f vs = .ok v := hv
      rw [hv']

theorem runDFS_exec_list :
    ∀ (ts : List Exec) (vs : List PyVal), evalArgs ts = .ok vs →
      ∀ (g : List PyVal → Except Err PyVal) (acc : List PyVal) (fuel : Nat)
        (rest : List (Frame Exec PyVal)),
        runDFS runProc (ecostArgs ts + fuel) (⟨g, ts, acc⟩ :: rest) =
          runDFS runProc fuel (⟨g, [], acc ++ vs⟩ :: rest)
  | [], vs, hv, g, acc, fuel, rest => by
    simp only [evalArgs, Except.ok.injEq] at hv
    subst hv
    simp [ecostArgs]
  | t :: ts', vs, hv, g, acc, fuel, rest => by
    simp only [evalArgs] at hv
    cases h1 : execEval t with
    | error e => rw [h1] at hv; exact absurd hv (by simp)
    | ok v =>
      rw [h1] at hv
      cases h2 : evalArgs ts' with
      | error e => rw [h2] at hv; exact absurd hv (by simp)
      | ok vs' =>
        rw [h2] at hv
        simp only [Except.ok.injEq] at hv
        subst hv
        have h3 : ecostArgs (t :: ts') + fuel =
            ecost t + (ecostArgs ts' + fuel) := by
          simp [ecostArgs]
          omega
        rw [h3]
        rw [runDFS_exec_step t v h1 g ts' acc rest (ecostArgs ts' + fuel)]
        rw [runDFS_exec_list ts' vs' h2 g (acc ++ [v]) fuel rest]
        simp

end

/-- The varargs stream `_DictTypeSpec.pack` receives: keys and values
interleaved. -/
def flattenPairs : List (PyVal × PyVal) → List PyVal
  | [] => []
  | (k, v) :: rest => k :: v :: flattenPairs rest

theorem pairup_flattenPairs :
    ∀ l : List (PyVal × PyVal), pairup (flattenPairs l) = l := by
  intro l
  induction l with
  | nil => simp [flattenPairs, pairup]
  | cons kv rest ih =>
    obtain ⟨k, v⟩ := kv
    simp [flattenPairs, pairup, ih]

theorem flattenPairs_length (l : List (PyVal × PyVal)) :
    (flattenPairs l).length = 2 * l.length := by
  induction l with
  | nil => simp [flattenPairs]
  | cons kv rest ih =>
    obtain ⟨k, v⟩ := kv
    simp [flattenPairs, ih]
    omega

mutual

theorem execEval_buildT :
    ∀ (ts : TypeSpec) (v : PyVal), realized ts v = true →
      execEval (buildT ts v) = .ok (repack ts v)
  | .classTS c, v, h => by
    simp [buildT, execEval, evalArgs, applyFuse, repack]
  | .listTS ts, v, h => by
    cases v with
    | list xs =>
      simp only [realized] at h
      simp only [buildT, execEval, repack]
      rw [evalArgs_buildElems ts xs h]
      simp [applyFuse]
    | tuple xs =>
      simp only [realized] at h
      simp only [buildT, execEval, repack]
      rw [evalArgs_buildElems ts xs h]
      simp [applyFuse]
    | none => simp [realized] at h
    | int n => simp [realized] at h
    | bool b => simp [realized] at h
    | str s => simp [realized] at h
    | dict kvs => simp [realized] at h
    | obj c f => simp [realized] at h
  | .dictTS ks vs, v, h => by
    cases v with
    | dict kvs =>
      simp only [realized] at h
      simp only [buildT, execEval, repack]
      rw [evalArgs_buildPairs ks vs kvs h]
      simp only [applyFuse, flattenPairs_length]
      have hmod : 2 * (repackPairs ks vs kvs).length % 2 = 0 := by omega
      rw [if_neg (by omega)]
      rw [pairup_flattenPairs]
    | none => simp [realized] at h
    | int n => simp [realized] at h
    | bool b => simp [realized] at h
    | str s => simp [realized] at h
    | list xs => simp [realized] at h
    | tuple xs => simp [realized] at h
    | obj c f => simp [realized] at h
  | .tupleTS tss, v, h => by
    cases v with
    | list xs =>
      simp only [realized] at h
      simp only [buildT, execEval, repack]
      rw [evalArgs_buildZip tss xs h]
      simp [applyFuse]
    | tuple xs =>
      simp only [realized] at h
      simp only [buildT, execEval, repack]
      rw [evalArgs_buildZip tss xs h]
      simp [applyFuse]
    | none => simp [realized] at h
    | int n => simp [realized] at h
    | bool b => simp [realized] at h
    | str s => simp [realized] at h
    | dict kvs => simp [realized] at h
    | obj c f => simp [realized] at h

theorem evalArgs_buildElems :
    ∀ (ts : TypeSpec) (xs : List PyVal), realizedElems ts xs = true →
      evalArgs (buildElems ts xs) = .ok (repackElems ts xs)
  | ts, [], _ => by simp [buildElems, evalArgs, repackElems]
  | ts, x :: xs, h => by
    simp only [realizedElems, Bool.and_eq_true] at h
    simp only [buildElems, evalArgs, repackElems]
    rw [execEval_buildT ts x h.1]
    rw [evalArgs_buildElems ts xs h.2]

theorem evalArgs_buildPairs :
    ∀ (ks vs : TypeSpec) (kvs : List (PyVal × PyVal)),
      realizedPairs ks vs kvs = true →
      evalArgs (buildPairs ks vs kvs) =
        .ok (flattenPairs (repackPairs ks vs kvs))
  | ks, vs, [], _ => by
    simp [buildPairs, evalArgs, repackPairs, flattenPairs]
  | ks, vs, (k, v) :: rest, h => by
    simp only [realizedPairs, Bool.and_eq_true] at h
    simp only [buildPairs, evalArgs, repackPairs, flattenPairs]
    rw [execEval_buildT ks k h.1.1]
    rw [execEval_buildT vs v h.1.2]
    rw [evalArgs_buildPairs ks vs rest h.2]

theorem evalArgs_buildZip :
    ∀ (tss : List TypeSpec) (xs : List PyVal), realizedZip tss xs = true →
      evalArgs (buildZip tss xs) = .ok (repackZip tss xs)
  | [], [], _ => by simp [buildZip, evalArgs, repackZip]
  | [], _ :: _, h => by simp [realizedZip] at h
  | _ :: _, [], h => by simp [realizedZip] at h
  | ts :: tss, x :: xs, h => by
    simp only [realizedZip, Bool.and_eq_true] at h
    simp only [buildZip, evalArgs, repackZip]
    rw [execEval_buildT ts x h.1]
    rw [evalArgs_buildZip tss xs h.2]

end

theorem realizedZip_length :
    ∀ (tss : List TypeSpec) (xs : List PyVal), realizedZip tss xs = true →
      xs.length = tss.length := by
  intro tss
  induction tss with
  | nil =>
    intro xs h
    cases xs with
    | nil => rfl
    | cons x xs => simp [realizedZip] at h
  | cons ts tss ih =>
    intro xs h
    cases xs with
    | nil => simp [realizedZip] at h
    | cons x xs =>
      simp only [realizedZip, Bool.and_eq_true] at h
      simp [ih xs h.2]

mutual

theorem runDFS_build_step (bkOpt : Option Broker) (selfCls : PyClass) :
    ∀ (ts : TypeSpec) (v : PyVal), realized ts v = true →
      ∀ (g : List Exec → Except Err Exec) (its : List XItem)
        (acc : List Exec) (rest : List (Frame XItem Exec)) (fuel : Nat),
        runDFS (createProc bkOpt selfCls) (bcost ts v + fuel)
            (⟨g, .ts ts v :: its, acc⟩ :: rest) =
          runDFS (createProc bkOpt selfCls) fuel
            (⟨g, its, acc ++ [buildT ts v]⟩ :: rest)
  | .classTS c, v, h, g, its, acc, rest, fuel => by
    simp only [realized] at h
    have h1 : bcost (.classTS c) v + fuel = ((fuel + 1) + 1) + 1 := by
      simp [bcost]
      omega
    rw [h1]
    simp only [runDFS, createProc, TypeSpec.parse_manifest, h, if_true,
      TypeSpec.packTag, buildT, List.nil_append]
  | .listTS ts, v, h, g, its, acc, rest, fuel => by
    cases v with
    | list xs =>
      simp only [realized] at h
      have h1 : bcost (.listTS ts) (.list xs) + fuel =
          (bcostElems ts xs + (1 + fuel)) + 1 := by
        simp [bcost]
        omega
      rw [h1]
      simp only [runDFS, createProc, TypeSpec.parse_manifest,
        TypeSpec.packTag]
      rw [runDFS_build_elems bkOpt selfCls ts xs h _ [] (1 + fuel) _]
      have h2 : 1 + fuel = fuel + 1 := by omega
      rw [h2]
      simp only [runDFS, List.nil_append, buildT]
    | tuple xs =>
      simp only [realized] at h
      have h1 : bcost (.listTS ts) (.tuple xs) + fuel =
          (bcostElems ts xs + (1 + fuel)) + 1 := by
        simp [bcost]
        omega
      rw [h1]
      simp only [runDFS, createProc, TypeSpec.parse_manifest,
        TypeSpec.packTag]
      rw [runDFS_build_elems bkOpt selfCls ts xs h _ [] (1 + fuel) _]
      have h2 : 1 + fuel = fuel + 1 := by omega
      rw [h2]
      simp only [runDFS, List.nil_append, buildT]
    | none => simp [realized] at h
    | int n => simp [realized] at h
    | bool b => simp [realized] at h
    | str s => simp [realized] at h
    | dict kvs => simp [realized] at h
    | obj c f => simp [realized] at h
  | .dictTS ks vs, v, h, g, its, acc, rest, fuel => by
    cases v with
    | dict kvs =>
      simp only [realized] at h
      have h1 : bcost (.dictTS ks vs) (.dict kvs) + fuel =
          (bcostPairs ks vs kvs + (1 + fuel)) + 1 := by
        simp [bcost]
        omega
      rw [h1]
      simp only [runDFS, createProc, TypeSpec.parse_manifest,
        TypeSpec.packTag]
      rw [runDFS_build_pairs bkOpt selfCls ks vs kvs h _ [] (1 + fuel) _]
      have h2 : 1 + fuel = fuel + 1 := by omega
      rw [h2]
      simp only [runDFS, List.nil_append, buildT]
    | none => simp [realized] at h
    | int n => simp [realized] at h
    | bool b => simp [realized] at h
    | str s => simp [realized] at h
    | list xs => simp [realized] at h
    | tuple xs => simp [realized] at h
    | obj c f => simp [realized] at h
  | .tupleTS tss, v, h, g, its, acc, rest, fuel => by
    cases v with
    | list xs =>
      simp only [realized] at h
      have hlen : xs.length = tss.length := realizedZip_length tss xs h
      have h1 : bcost (.tupleTS tss) (.list xs) + fuel =
          (bcostZip tss xs + (1 + fuel)) + 1 := by
        simp [bcost]
        omega
      rw [h1]
      simp only [runDFS, createProc, TypeSpec.parse_manifest,
        TypeSpec.packTag, hlen, if_true]
      rw [runDFS_build_zip bkOpt selfCls tss xs h _ [] (1 + fuel) _]
      have h2 : 1 + fuel = fuel + 1 := by omega
      rw [h2]
      simp only [runDFS, List.nil_append, buildT]
    | tuple xs =>
      simp only [realized] at h
      have hlen : xs.length = tss.length := realizedZip_length tss xs h
      have h1 : bcost (.tupleTS tss) (.tuple xs) + fuel =
          (bcostZip tss xs + (1 + fuel)) + 1 := by
        simp [bcost]
        omega
      rw [h1]
      simp only [runDFS, createProc, TypeSpec.parse_manifest,
        TypeSpec.packTag, hlen, if_true]
      rw [runDFS_build_zip bkOpt selfCls tss xs h _ [] (1 + fuel) _]
      have h2 : 1 + fuel = fuel + 1 := by omega
      rw [h2]
      simp only [runDFS, List.nil_append, buildT]
    | none => simp [realized] at h
    | int n => simp [realized] at h
    | bool b => simp [realized] at h
    | str s => simp [realized] at h
    | dict kvs => simp [realized] at h
    | obj c f => simp [realized] at h

theorem runDFS_build_elems (bkOpt : Option Broker) (selfCls : PyClass) :
    ∀ (ts : TypeSpec) (xs : List PyVal), realizedElems ts xs = true →
      ∀ (g : List Exec → Except Err Exec) (acc : List Exec) (fuel : Nat)
        (rest : List (Frame XItem Exec)),
        runDFS (createProc bkOpt selfCls) (bcostElems ts xs + fuel)
            (⟨g, xs.map (fun x => XItem.ts ts x), acc⟩ :: rest) =
          runDFS (createProc bkOpt selfCls) fuel
            (⟨g, [], acc ++ buildElems ts xs⟩ :: rest)
  | ts, [], _, g, acc, fuel, rest => by
    simp [bcostElems, buildElems]
  | ts, x :: xs, h, g, acc, fuel, rest => by
    simp only [realizedElems, Bool.and_eq_true] at h
    have h1 : bcostElems ts (x :: xs) + fuel =
        bcost ts x + (bcostElems ts xs + fuel) := by
      simp [bcostElems]
      omega
    rw [h1]
    simp only [List.map_cons]
    rw [runDFS_build_step bkOpt selfCls ts x h.1 g
      (xs.map (fun x => XItem.ts ts x)) acc rest (bcostElems ts xs + fuel)]
    rw [runDFS_build_elems bkOpt selfCls ts xs h.2 g
      (acc ++ [buildT ts x]) fuel rest]
    simp [buildElems]

theorem runDFS_build_pairs (bkOpt : Option Broker) (selfCls : PyClass) :
    ∀ (ks vs : TypeSpec) (kvs : List (PyVal × PyVal)),
      realizedPairs ks vs kvs = true →
      ∀ (g : List Exec → Except Err Exec) (acc : List Exec) (fuel : Nat)
        (rest : List (Frame XItem Exec)),
        runDFS (createProc bkOpt selfCls) (bcostPairs ks vs kvs + fuel)
            (⟨g, kvs.flatMap (fun kv => [.ts ks kv.1, .ts vs kv.2]), acc⟩
              :: rest) =
          runDFS (createProc bkOpt selfCls) fuel
            (⟨g, [], acc ++ buildPairs ks vs kvs⟩ :: rest)
  | ks, vs, [], _, g, acc, fuel, rest => by
    simp [bcostPairs, buildPairs]
  | ks, vs, (k, v) :: kvs, h, g, acc, fuel, rest => by
    simp only [realizedPairs, Bool.and_eq_true] at h
    have h1 : bcostPairs ks vs ((k, v) :: kvs) + fuel =
        bcost ks k + (bcost vs v + (bcostPairs ks vs kvs + fuel)) := by
      simp [bcostPairs]
      omega
    rw [h1]
    simp only [List.flatMap_cons, List.cons_append, List.nil_append]
    rw [runDFS_build_step bkOpt selfCls ks k h.1.1 g _ acc rest _]
    rw [runDFS_build_step bkOpt selfCls vs v h.1.2 g _ _ rest _]
    rw [runDFS_build_pairs bkOpt selfCls ks vs kvs h.2 g _ fuel rest]
    simp [buildPairs]

theorem runDFS_build_zip (bkOpt : Option Broker) (selfCls : PyClass) :
    ∀ (tss : List TypeSpec) (xs : List PyVal), realizedZip tss xs = true →
      ∀ (g : List Exec → Except Err Exec) (acc : List Exec) (fuel : Nat)
        (rest : List (Frame XItem Exec)),
        runDFS (createProc bkOpt selfCls) (bcostZip tss xs + fuel)
            (⟨g, (tss.zip xs).map (fun p => XItem.ts p.1 p.2), acc⟩
              :: rest) =
          runDFS (createProc bkOpt selfCls) fuel
            (⟨g, [], acc ++ buildZip tss xs⟩ :: rest)
  | [], [], _, g, acc, fuel, rest => by
    simp [bcostZip, buildZip]
  | [], _ :: _, h, g, acc, fuel, rest => by simp [realizedZip] at h
  | _ :: _, [], h, g, acc, fuel, rest => by simp [realizedZip] at h
  | ts :: tss, x :: xs, h, g, acc, fuel, rest => by
    simp only [realizedZip, Bool.and_eq_true] at h
    have h1 : bcostZip (ts :: tss) (x :: xs) + fuel =
        bcost ts x + (bcostZip tss xs + fuel) := by
      simp [bcostZip]
      omega
    rw [h1]
    simp only [List.zip_cons_cons, List.map_cons]
    rw [runDFS_build_step bkOpt selfCls ts x h.1 g _ acc rest _]
    rw [runDFS_build_zip bkOpt selfCls tss xs h.2 g _ fuel rest]
    simp [buildZip]

end

theorem asKwargsDict_roundtrip (l : List (String × PyVal)) :
    asKwargsDict (.dict (l.map fun kv => (.str kv.1, kv.2))) =
      .ok (some l) := by
  have hmap : (l.map fun kv => ((.str kv.1 : PyVal), kv.2)).mapM (fun kv =>
      (match kv.1 with
      | .str s => Except.ok (s, kv.2)
      | _ => Except.error (.typeErr "keywords must be strings") :
        Except Err (String × PyVal))) = .ok l := by
    induction l with
    | nil => rfl
    | cons kv rest ih =>
      obtain ⟨k, v⟩ := kv
      simp only [List.map_cons, List.mapM_cons, ih]
      rfl
  simp only [asKwargsDict, hmap]

/-- Setting a fresh key appends it. -/
theorem pySet_append {α : Type} :
    ∀ (l : List (String × α)) (k : String) (v : α),
      k ∉ l.map Prod.fst → pySet l k v = l ++ [(k, v)] := by
  intro l
  induction l with
  | nil => intro k v _; simp [pySet]
  | cons kv rest ih =>
    obtain ⟨k0, v0⟩ := kv
    intro k v h
    simp only [List.map_cons, List.mem_cons, not_or] at h
    simp only [pySet, if_neg (Ne.symm h.1)]
    rw [ih k v h.2]
    simp

/-- Updating the empty dict with entries whose keys are distinct reproduces
them in order. -/
theorem pyUpdate_acc_append {α : Type} :
    ∀ (l acc : List (String × α)),
      (∀ kv ∈ l, kv.1 ∉ acc.map Prod.fst) → (l.map Prod.fst).Nodup →
      pyUpdate acc l = acc ++ l := by
  intro l
  induction l with
  | nil => intro acc _ _; simp [pyUpdate]
  | cons kv rest ih =>
    obtain ⟨k, v⟩ := kv
    intro acc hdisj hnd
    simp only [List.map_cons, List.nodup_cons] at hnd
    have hstep : pyUpdate acc ((k, v) :: rest) =
        pyUpdate (pySet acc k v) rest := rfl
    rw [hstep]
    rw [pySet_append acc k v (hdisj (k, v) (List.mem_cons_self _ _))]
    have hdisj2 : ∀ kv2 ∈ rest, kv2.1 ∉ (acc ++ [(k, v)]).map Prod.fst := by
      intro kv2 hkv2
      simp only [List.map_append, List.mem_append, List.map_cons,
        List.map_nil, not_or]
      refine ⟨hdisj kv2 (List.mem_cons_of_mem _ hkv2), ?_⟩
      simp only [List.mem_cons, List.not_mem_nil, or_false, ne_eq]
      intro heq
      exact hnd.1 (heq ▸ List.mem_map_of_mem Prod.fst hkv2)
    rw [ih (acc ++ [(k, v)]) hdisj2 hnd.2]
    simp

theorem pyUpdate_nil_eq {α : Type} (l : List (String × α))
    (h : (l.map Prod.fst).Nodup) : pyUpdate [] l = l := by
  have := pyUpdate_acc_append l [] (by simp) h
  simpa using this

/-- The child items `parse_inputs` yields for the merged arguments. -/
def kwItems (fct : Factory) (merged : List (String × PyVal)) : List XItem :=
  (merged.map fun kv =>
    [XItem.noneTag (.str kv.1), XItem.ts (fct.paramType kv.1) kv.2]).flatten

/-- Their built exec subtrees. -/
def kwExecs (fct : Factory) (merged : List (String × PyVal)) : List Exec :=
  (merged.map fun kv =>
    [Exec.val (.str kv.1), buildT (fct.paramType kv.1) kv.2]).flatten

/-- Their evaluated varargs stream. -/
def kwVals (fct : Factory) (merged : List (String × PyVal)) : List PyVal :=
  (merged.map fun kv =>
    [PyVal.str kv.1, repack (fct.paramType kv.1) kv.2]).flatten

/-- Build cost of the merged arguments' child items. -/
def kwcost (fct : Factory) (merged : List (String × PyVal)) : Nat :=
  (merged.map (fun kv => 1 + bcost (fct.paramType kv.1) kv.2)).sum

/-- The kwargs the factory callable finally receives: each merged value
repacked per its declared type spec. -/
def repackedKwargs (fct : Factory) (merged : List (String × PyVal)) :
    List (String × PyVal) :=
  merged.map fun kv => (kv.1, repack (fct.paramType kv.1) kv.2)

theorem runDFS_build_kwitems (bkOpt : Option Broker) (selfCls : PyClass)
    (fct : Factory) :
    ∀ (merged : List (String × PyVal)),
      (∀ kv ∈ merged, ∃ ps,
        fct.sig.ordered_param_specs.lookup kv.1 = some ps ∧
        realized ps.type kv.2 = true) →
      ∀ (g : List Exec → Except Err Exec) (acc : List Exec) (fuel : Nat)
        (rest : List (Frame XItem Exec)),
        runDFS (createProc bkOpt selfCls) (kwcost fct merged + fuel)
            (⟨g, kwItems fct merged, acc⟩ :: rest) =
          runDFS (createProc bkOpt selfCls) fuel
            (⟨g, [], acc ++ kwExecs fct merged⟩ :: rest) := by
  intro merged
  induction merged with
  | nil =>
    intro _ g acc fuel rest
    simp [kwcost, kwItems, kwExecs]
  | cons kv rest' ih =>
    obtain ⟨k, v⟩ := kv
    intro hsig g acc fuel rest
    obtain ⟨ps, hps, hreal⟩ := hsig (k, v) (List.mem_cons_self _ _)
    have hpt : fct.paramType k = ps.type := by
      simp [Factory.paramType, hps]
    have h1 : kwcost fct ((k, v) :: rest') + fuel =
        ((1 + bcost (fct.paramType k) v) + (kwcost fct rest' + fuel)) := by
      simp [kwcost]
      omega
    rw [h1]
    have h2 : (1 + bcost (fct.paramType k) v) + (kwcost fct rest' + fuel) =
        (bcost (fct.paramType k) v + (kwcost fct rest' + fuel)) + 1 := by
      omega
    rw [h2]
    have hitems : kwItems fct ((k, v) :: rest') =
        XItem.noneTag (.str k) ::
          XItem.ts (fct.paramType k) v :: kwItems fct rest' := by
      simp [kwItems]
    rw [hitems]
    simp only [runDFS, createProc]
    rw [runDFS_build_step bkOpt selfCls (fct.paramType k) v
      (by rw [hpt]; exact hreal) g (kwItems fct rest')
      (acc ++ [Exec.val (PyVal.str k)]) rest (kwcost fct rest' + fuel)]
    rw [ih (fun kv2 hkv2 => hsig kv2 (List.mem_cons_of_mem _ hkv2)) g
      ((acc ++ [Exec.val (PyVal.str k)]) ++ [buildT (fct.paramType k) v])
      fuel rest]
    have hexecs : kwExecs fct ((k, v) :: rest') =
        Exec.val (.str k) ::
          buildT (fct.paramType k) v :: kwExecs fct rest' := by
      simp [kwExecs]
    rw [hexecs]
    simp

theorem evalArgs_kwExecs (fct : Factory) :
    ∀ (merged : List (String × PyVal)),
      (∀ kv ∈ merged, ∃ ps,
        fct.sig.ordered_param_specs.lookup kv.1 = some ps ∧
        realized ps.type kv.2 = true) →
      evalArgs (kwExecs fct merged) = .ok (kwVals fct merged) := by
  intro merged
  induction merged with
  | nil => intro _; simp [kwExecs, kwVals, evalArgs]
  | cons kv rest' ih =>
    obtain ⟨k, v⟩ := kv
    intro hsig
    obtain ⟨ps, hps, hreal⟩ := hsig (k, v) (List.mem_cons_self _ _)
    have hpt : fct.paramType k = ps.type := by
      simp [Factory.paramType, hps]
    have hexecs : kwExecs fct ((k, v) :: rest') =
        Exec.val (.str k) ::
          buildT (fct.paramType k) v :: kwExecs fct rest' := by
      simp [kwExecs]
    have hvals : kwVals fct ((k, v) :: rest') =
        PyVal.str k ::
          repack (fct.paramType k) v :: kwVals fct rest' := by
      simp [kwVals]
    rw [hexecs, hvals]
    simp only [evalArgs, execEval]
    rw [execEval_buildT (fct.paramType k) v (by rw [hpt]; exact hreal)]
    rw [ih (fun kv2 hkv2 => hsig kv2 (List.mem_cons_of_mem _ hkv2))]

theorem kwVals_length (fct : Factory) (merged : List (String × PyVal)) :
    (kwVals fct merged).length = 2 * merged.length := by
  induction merged with
  | nil => simp [kwVals]
  | cons kv rest ih =>
    obtain ⟨k, v⟩ := kv
    have h : kwVals fct ((k, v) :: rest) =
        PyVal.str k :: repack (fct.paramType k) v :: kwVals fct rest := by
      simp [kwVals]
    rw [h]
    simp [ih]
    omega

theorem varargs_pairs_kwVals (fct : Factory) :
    ∀ (merged : List (String × PyVal)),
      varargs_to_kwargs.pairs (kwVals fct merged) =
        .ok (repackedKwargs fct merged) := by
  intro merged
  induction merged with
  | nil => simp [kwVals, repackedKwargs, varargs_to_kwargs.pairs]
  | cons kv rest ih =>
    obtain ⟨k, v⟩ := kv
    have h : kwVals fct ((k, v) :: rest) =
        PyVal.str k :: repack (fct.paramType k) v :: kwVals fct rest := by
      simp [kwVals]
    rw [h]
    simp only [varargs_to_kwargs.pairs, ih]
    simp only [repackedKwargs, List.map_cons]
    rfl

theorem varargs_kwVals (fct : Factory) (merged : List (String × PyVal))
    (hnd : (merged.map Prod.fst).Nodup) :
    varargs_to_kwargs (kwVals fct merged) =
      .ok (repackedKwargs fct merged) := by
  have hlen : (kwVals fct merged).length % 2 = 0 := by
    rw [kwVals_length]
    omega
  have hkeys : ((repackedKwargs fct merged).map Prod.fst).Nodup := by
    have : (repackedKwargs fct merged).map Prod.fst =
        merged.map Prod.fst := by
      simp [repackedKwargs]
    rw [this]
    exact hnd
  simp only [varargs_to_kwargs, hlen]
  rw [if_neg (by omega)]
  rw [varargs_pairs_kwVals]
  show Except.ok (pyUpdate [] (repackedKwargs fct merged)) = _
  rw [pyUpdate_nil_eq _ hkeys]

theorem parse_inputs_realized (fct : Factory)
    (inputs merged : List (String × PyVal))
    (hmerge : fct.merge_inputs inputs = .ok merged)
    (hsig : ∀ kv ∈ merged, ∃ ps,
      fct.sig.ordered_param_specs.lookup kv.1 = some ps ∧
      realized ps.type kv.2 = true) :
    fct.parse_inputs (some inputs) = .ok (kwItems fct merged) := by
  have hmm : ∀ (l : List (String × PyVal)),
      (∀ kv ∈ l, ∃ ps,
        fct.sig.ordered_param_specs.lookup kv.1 = some ps ∧
        realized ps.type kv.2 = true) →
      l.mapM (fun kv =>
        (match fct.sig.ordered_param_specs.lookup kv.1 with
        | some ps =>
          Except.ok [XItem.noneTag (.str kv.1), XItem.ts ps.type kv.2]
        | Option.none => Except.error (.keyErr kv.1) :
          Except Err (List XItem))) =
        .ok (l.map fun kv =>
          [XItem.noneTag (.str kv.1),
           XItem.ts (fct.paramType kv.1) kv.2]) := by
    intro l
    induction l with
    | nil => intro _; rfl
    | cons kv rest ih =>
      obtain ⟨k, v⟩ := kv
      intro hs
      obtain ⟨ps, hps, _⟩ := hs (k, v) (List.mem_cons_self _ _)
      have hpt : fct.paramType k = ps.type := by
        simp [Factory.paramType, hps]
      rw [List.mapM_cons]
      rw [ih (fun kv2 hkv2 => hs kv2 (List.mem_cons_of_mem _ hkv2))]
      simp only [hps, List.map_cons]
      rw [hpt]
      rfl
  simp only [Factory.parse_inputs, Option.getD, hmerge, hmm merged hsig,
    kwItems]

/-- Phase 1 of `make` on a realized inputs dict: `_create_exec_tree` returns
the factory-call node over the built argument subtrees, wrapped in the target
class's pack node. -/
theorem create_exec_tree_realized (self : Mfr) (bk : Broker) (key : String)
    (fct : Factory) (inputs merged : List (String × PyVal))
    (hlook : bk.mfrs.lookup self.cls = some self)
    (hget : self.get key = some fct)
    (hmerge : fct.merge_inputs inputs = .ok merged)
    (hsig : ∀ kv ∈ merged, ∃ ps,
      fct.sig.ordered_param_specs.lookup kv.1 = some ps ∧
      realized ps.type kv.2 = true)
    (extra : Nat) :
    self.create_exec_tree (some bk) (kwcost fct merged + 5 + extra) key
        (some inputs) =
      some (.ok (.call .packClass
        [.call (.factoryFuse fct) (kwExecs fct merged)])) := by
  have hdirect := root_not_direct self.cls key (some inputs)
  have hparse := root_parse key (some inputs)
  have hkids : factoryChildren fct
      (.dict (inputs.map fun kv => (.str kv.1, kv.2))) =
      .ok (kwItems fct merged) := by
    simp only [factoryChildren, asKwargsDict_roundtrip]
    exact parse_inputs_realized fct inputs merged hmerge hsig
  simp only [Mfr.create_exec_tree, PostorderDFS]
  have h1 : kwcost fct merged + 5 + extra =
      ((kwcost fct merged + 3 + extra) + 1) + 1 := by omega
  rw [h1]
  simp only [runDFS, createProc, TypeSpec.parse_manifest, hdirect,
    Bool.false_eq_true, if_false, hparse, TypeSpec.packTag,
    Broker.get_or_create, hlook, Mfr.getV, hget, hkids]
  have h2 : kwcost fct merged + 3 + extra =
      kwcost fct merged + (3 + extra) := by omega
  rw [h2]
  rw [runDFS_build_kwitems (some bk) self.cls fct merged hsig _ [] (3 + extra)
    _]
  have h3 : 3 + extra = ((extra + 1) + 1) + 1 := by omega
  rw [h3]
  simp [runDFS]

/-- Phase 2 of `make`: running the exec tree through the machine returns its
recursive evaluation. -/
theorem postorder_run_exec (root : Exec) (v : PyVal)
    (h : execEval root = .ok v) (extra : Nat) :
    PostorderDFS runProc (ecost root + 1 + extra) root = some (.ok v) := by
  simp only [PostorderDFS]
  have h1 : ecost root + 1 + extra = ecost root + (extra + 1) := by omega
  rw [h1]
  rw [runDFS_exec_step root v h _ [] [] [] (extra + 1)]
  simp [runDFS]

/-- Evaluating the exec tree of a realized call: the factory callable is
invoked once, on the repacked kwargs, and its (type-checked) result is handed
through the class pack node unchanged. -/
theorem execEval_root_realized (fct : Factory)
    (merged : List (String × PyVal))
    (hsig : ∀ kv ∈ merged, ∃ ps,
      fct.sig.ordered_param_specs.lookup kv.1 = some ps ∧
      realized ps.type kv.2 = true)
    (hnd : (merged.map Prod.fst).Nodup)
    (hinst : isinstance (fct.fn.call (repackedKwargs fct merged))
        fct.cls = true) :
    execEval (.call .packClass [.call (.factoryFuse fct)
        (kwExecs fct merged)]) =
      .ok (fct.fn.call (repackedKwargs fct merged)) := by
  have hinner : execEval (.call (.factoryFuse fct) (kwExecs fct merged)) =
      .ok (fct.fn.call (repackedKwargs fct merged)) := by
    simp only [execEval]
    rw [evalArgs_kwExecs fct merged hsig]
    simp only [applyFuse]
    rw [varargs_kwVals fct merged hnd]
    simp [Factory.call, hinst]
  have hargs : evalArgs [Exec.call (.factoryFuse fct) (kwExecs fct merged)] =
      .ok [fct.fn.call (repackedKwargs fct merged)] := by
    simp only [evalArgs, hinner]
  simp only [execEval, hargs, applyFuse]

/-- C1: `make(key, inputs)` on a broker-bound manufacturer, with every merged
argument already realized for its declared parameter type, invokes the
registered factory's callable once, with keyword arguments equal to the
declared defaults overlaid by `inputs` *with each value repacked per its
declared type spec* (the identity for class-spec'd parameters; list- and
tuple-spec'd values are delivered as tuples, dict-spec'd values are rebuilt
entrywise), and returns the callable's result. -/
theorem C1_make_realized_inputs (self : Mfr) (bk : Broker) (key : String)
    (fct : Factory) (inputs merged : List (String × PyVal))
    (hlook : bk.mfrs.lookup self.cls = some self)
    (hget : self.get key = some fct)
    (hmerge : fct.merge_inputs inputs = .ok merged)
    (hnd : (merged.map Prod.fst).Nodup)
    (hsig : ∀ kv ∈ merged, ∃ ps,
      fct.sig.ordered_param_specs.lookup kv.1 = some ps ∧
      realized ps.type kv.2 = true)
    (hinst : isinstance (fct.fn.call (repackedKwargs fct merged))
        fct.cls = true) :
    ∃ F, ∀ fuel, F ≤ fuel →
      self.make (some bk) fuel (some key) (some inputs) =
        some (.ok (fct.fn.call (repackedKwargs fct merged))) := by
  refine ⟨kwcost fct merged +
    ecost (.call .packClass [.call (.factoryFuse fct)
      (kwExecs fct merged)]) + 6, ?_⟩
  intro fuel hfuel
  obtain ⟨e1, he1⟩ : ∃ e1, fuel = kwcost fct merged + 5 + e1 :=
    ⟨fuel - (kwcost fct merged + 5), by omega⟩
  obtain ⟨e2, he2⟩ : ∃ e2, fuel =
      ecost (.call .packClass [.call (.factoryFuse fct)
        (kwExecs fct merged)]) + 1 + e2 :=
    ⟨fuel - (ecost (.call .packClass [.call (.factoryFuse fct)
      (kwExecs fct merged)]) + 1), by omega⟩
  have hphase1 :=
    create_exec_tree_realized self bk key fct inputs merged hlook hget
      hmerge hsig e1
  have hroot := execEval_root_realized fct merged hsig hnd hinst
  simp only [Mfr.make, Mfr.make_impl, hget]
  rw [he1, hphase1]
  rw [← he1, he2]
  exact postorder_run_exec _ _ hroot e2

/-- A callable echoing its `values` kwarg into a fresh `V` instance. -/
def vFact : Factory :=
  ⟨.user "V",
   ⟨⟨["values"], [], false⟩,
    fun kw => .obj "V" (match kw.lookup "values" with
      | some v => [v]
      | Option.none => [])⟩,
   ⟨[("values", ⟨.listTS (.classTS .intCls), "", true⟩)], ["values"]⟩,
   []⟩

/-- A manufacturer for `V` holding `vFact` under `"mk"`. -/
def vMfr : Mfr := { Mfr.create (.user "V") with user_fcts := [("mk", vFact)] }

/-- A broker binding `vMfr`. -/
def vBk : Broker := ⟨[(.user "V", vMfr)]⟩

/-- Counterexample to C1 as stated: the factory's parameter `values` is
declared with a list type spec; `make` with the realized input
`values = [1]` hands the callable the *tuple* `(1,)` (because
`_ListTypeSpec.pack` returns its varargs tuple), not the list unmodified, so
the result differs from calling the callable directly on
`defaults ∪ inputs`. -/
theorem C1_counterexample :
    vMfr.make (some vBk) 40 (some "mk") (some [("values", .list [.int 1])]) =
      some (.ok (.obj "V" [.tuple [.int 1]])) ∧
    vFact.fn.call (pyUpdate vFact.defaults [("values", .list [.int 1])]) =
      .obj "V" [.list [.int 1]] ∧
    (PyVal.obj "V" [.tuple [.int 1]]) ≠ (PyVal.obj "V" [.list [.int 1]]) := by
  refine ⟨rfl, rfl, ?_⟩
  simp

/-- A callable echoing its `a` kwarg into a fresh `C` instance. -/
def cFact : Factory :=
  ⟨.user "C",
   ⟨⟨["a"], [], false⟩,
    fun kw => .obj "C" (match kw.lookup "a" with
      | some v => [v]
      | Option.none => [])⟩,
   ⟨[("a", ⟨.classTS .intCls, "", true⟩)], ["a"]⟩,
   []⟩

/-- A manufacturer for `C` holding `cFact` under `"mk"`. -/
def cMfr : Mfr := { Mfr.create (.user "C") with user_fcts := [("mk", cFact)] }

/-- A broker binding `cMfr`. -/
def cBk : Broker := ⟨[(.user "C", cMfr)]⟩

/-- Witness for C1 on a concrete bound manufacturer with a class-spec'd
parameter, where the repacking is the identity. -/
theorem C1_witness :
    ∃ F, ∀ fuel, F ≤ fuel →
      cMfr.make (some cBk) fuel (some "mk") (some [("a", .int 5)]) =
        some (.ok (.obj "C" [.int 5])) :=
  C1_make_realized_inputs cMfr cBk "mk" cFact [("a", .int 5)] [("a", .int 5)]
    (by rfl) (by rfl) (by rfl) (by simp)
    (by
      intro kv hkv
      simp only [List.mem_singleton] at hkv
      subst hkv
      exact ⟨⟨.classTS .intCls, "", true⟩, by rfl, by rfl⟩)
    (by rfl)

end Afb
